import Mathlib

/-!
Verification development for the chat endpoint of the purview-api-integration
sample (packages/api/src/functions/chats-post.ts).

The TypeScript handler `postChats` is embedded shallowly: external calls
(identity, protection-scope API, process-content API, retriever, chat model,
history store, offline enqueue) are represented by oracle-provided results, and
the two process-wide maps (`sessionSequenceMap`, `sessionProtectionDataMap`)
become an explicit `ServerState` threaded through a pure step function.
Logging is not modelled (it is I/O with no observable effect on the result).
-/

/-- Truthiness of a JS value that is either a string or undefined:
`undefined` and the empty string are falsy. -/
def optTruthy : Option String → Bool
  | none => false
  | some s => s != ""

/-- JS `x || d` for `x : string | undefined`. -/
def jsOr (x : Option String) (d : String) : String :=
  match x with
  | some s => if s = "" then d else s
  | none => d

/-- JS `map.get(k) || d` where the stored value may itself be `undefined`. -/
def jsOr2 (x : Option (Option String)) (d : String) : String :=
  match x with
  | some (some s) => if s = "" then d else s
  | _ => d

/-- Lookup in an association list, modelling `Map.get`. -/
def lookupA {α : Type} : List (String × α) → String → Option α
  | [], _ => none
  | (k', v) :: t, k => if k' = k then some v else lookupA t k

/-- Insert-or-replace in an association list, modelling `Map.set`
(insertion order preserved, value replaced in place). -/
def setA {α : Type} : List (String × α) → String → α → List (String × α)
  | [], k, v => [(k, v)]
  | (k', v') :: t, k, v => if k' = k then (k, v) :: t else (k', v') :: setA t k v

/-- JS `s.split(',')`: split on every comma; the empty string yields one
empty piece. -/
def jsSplitComma : List Char → List (List Char)
  | [] => [[]]
  | c :: t =>
    if c = ',' then [] :: jsSplitComma t
    else
      match jsSplitComma t with
      | h :: r => (c :: h) :: r
      | [] => [[c]]

/-- JS `s.trim()`: strip leading and trailing whitespace. -/
def trimL (l : List Char) : List Char :=
  ((l.dropWhile Char.isWhitespace).reverse.dropWhile Char.isWhitespace).reverse

/-- JS `s.toLowerCase()` restricted to the per-character lowering the
embedding needs. -/
def strToLower (s : String) : String :=
  String.mk (s.toList.map Char.toLower)

/-- JS `s.startsWith(p)`. -/
def strStartsWith (s p : String) : Bool :=
  p.toList.isPrefixOf s.toList

/-- One entry of the ProtectionScope API response body: `activities` is a
comma-separated string (or absent / not a string, modelled `none`),
`executionMode` is a string or absent, `locations` holds the `value` field of
each location object. -/
structure ScopeEntry where
  activities : Option String
  executionMode : Option String
  locations : List (Option String)
deriving DecidableEq

/-- Activity names contributed by one scope entry:
`entry.activities.split(',').map(a => a.trim())`, or `[]` when `activities`
is not a string. -/
def activitiesOf (e : ScopeEntry) : List String :=
  match e.activities with
  | none => []
  | some s => (jsSplitComma s.toList).map (fun l => String.mk (trimL l))

/-- Body of the per-activity loop in `processProtectionScopeApiResponse`:
`if (!activityExecutionMap.has(activity) || executionModeValue === 'evaluateInline')
   activityExecutionMap.set(activity, executionModeValue)`. -/
def insertActivity (mode : Option String) (m : List (String × Option String))
    (a : String) : List (String × Option String) :=
  if (lookupA m a).isNone ∨ mode = some "evaluateInline" then setA m a mode else m

/-- Processing of a single scope entry: iterate its activity list. -/
def processEntry (m : List (String × Option String)) (e : ScopeEntry) :
    List (String × Option String) :=
  (activitiesOf e).foldl (insertActivity e.executionMode) m

/-- Construction of `activityExecutionMap` from the list of scope entries. -/
def buildActivityMap (entries : List ScopeEntry) : List (String × Option String) :=
  entries.foldl processEntry []

/-- ProtectionScope API response body: `value` is the entry array, `none` when
missing or not an array. -/
structure ScopeApiBody where
  value : Option (List ScopeEntry)
deriving DecidableEq

/-- Resolution `activityExecutionMap.get(a) || 'default'`. -/
def resolveMode (m : List (String × Option String)) (a : String) : String :=
  jsOr2 (lookupA m a) "default"

/-- Embedding of `processProtectionScopeApiResponse`: when `value` is missing
or not an array the function logs and then throws on `for (const entry of
apiResponse.value)` (modelled as `.error`), otherwise it returns the built
activity map together with the resolved upload/download execution modes. -/
def processProtectionScopeApiResponse (api : ScopeApiBody) :
    Except Unit (List (String × Option String) × String × String) :=
  match api.value with
  | none => .error ()
  | some entries =>
    let m := buildActivityMap entries
    .ok (m, resolveMode m "uploadText", resolveMode m "downloadText")

/-- Decidable test used to state the tie-break property: does the entry's
activity list mention `a`. -/
def entryHasActivity (a : String) (e : ScopeEntry) : Bool :=
  (activitiesOf e).contains a

/-- Specification-side predicate: some entry mentioning `a` carries execution
mode `evaluateInline`. -/
def anyInline (entries : List ScopeEntry) (a : String) : Bool :=
  entries.any fun e => entryHasActivity a e && e.executionMode == some "evaluateInline"

/-- Specification-side value: execution mode of the first entry mentioning
`a`, if any. -/
def firstModeFor (entries : List ScopeEntry) (a : String) : Option (Option String) :=
  (entries.find? (entryHasActivity a)).map (·.executionMode)

/-- Occurrence test for `p` inside `s` (JS `String.prototype.includes`),
directly on character lists. -/
def containsTok : List Char → List Char → Bool
  | s, p =>
    match s with
    | [] => p.isEmpty
    | _ :: t => p.isPrefixOf s || containsTok t p

/-- JS `hay.includes(needle)`. -/
def strIncludes (hay needle : String) : Bool :=
  containsTok hay.toList needle.toList

/-- Result of `getLabelInfo` for one document: the call throws, or returns a
body whose `value[0].rights.value` is a string (`some s`) or missing /
non-string (`none`). -/
inductive LabelLookupResult
  | err : LabelLookupResult
  | ok : Option String → LabelLookupResult
deriving DecidableEq

/-- Retrieved document as consumed by the handler: `metadata.source`,
`metadata.label_metadata.label_id`, `metadata.label_metadata.label_name`, and
the oracle result of its label lookup. -/
structure DocModel where
  source : Option String
  labelId : Option String
  labelName : Option String
  lookup : LabelLookupResult
deriving DecidableEq

/-- Embedding of one element of the `labelTasks` array in `postChats`:
returns `some doc` when the document is kept, `none` when it maps to `null`.
A document with falsy `label_id` returns `null` immediately; a lookup error is
caught and yields `null`; otherwise the lower-cased rights value (empty when
missing or not a string) must be contained in the accepted-rights string. -/
def labelTask (acceptedAccessRight : String) (d : DocModel) : Option DocModel :=
  match d.labelId with
  | none => none
  | some lid =>
    if lid = "" then none
    else
      match d.lookup with
      | .err => none
      | .ok raw =>
        let rightsValue := match raw with
          | some s => strToLower s
          | none => ""
        if strIncludes acceptedAccessRight rightsValue then some d else none

/-- Embedding of the Tier-2 filtering: run `labelTask` over all retrieved
documents and keep the non-null results. -/
def labelFilterDocs (accepted : String) (docs : List DocModel) : List DocModel :=
  (docs.map (labelTask accepted)).filterMap id

/-- Pointwise characterisation of which documents survive the label filter. -/
def labelKeep (accepted : String) (d : DocModel) : Bool :=
  match d.labelId with
  | none => false
  | some lid =>
    lid != "" &&
      (match d.lookup with
       | .err => false
       | .ok raw =>
         strIncludes accepted (match raw with | some s => strToLower s | none => ""))

/-- Index of the leftmost occurrence of `p` in `s`, if any. -/
def findOcc (p : List Char) : List Char → Option Nat
  | [] => if p.isEmpty then some 0 else none
  | c :: t => if p.isPrefixOf (c :: t) then some 0 else (findOcc p t).map (· + 1)

/-- Fuelled worker for `String.prototype.replaceAll` with a nonempty pattern:
repeatedly replace the leftmost occurrence and continue after the inserted
replacement. -/
def replaceAllGo (p r : List Char) : Nat → List Char → List Char
  | 0, s => s
  | fuel + 1, s =>
    match findOcc p s with
    | none => s
    | some i => s.take i ++ r ++ replaceAllGo p r fuel (s.drop (i + p.length))

/-- JS `s.replaceAll(p, r)` on character lists (each replacement step consumes
at least one character of `s`, so `s.length` is enough fuel). -/
def replaceAllL (p r s : List Char) : List Char :=
  replaceAllGo p r s.length s

/-- JS `s.replaceAll(p, r)` on strings. -/
def strReplaceAll (s p r : String) : String :=
  String.mk (replaceAllL p.toList r.toList s.toList)

/-- Character list of the fixed infix `" (Label: "` of a formatted
reference. -/
def lblChars : List Char := (" (Label: ").toList

/-- JS template interpolation of `document.metadata?.source`:
`undefined` prints as the string "undefined". -/
def fnameStr (d : DocModel) : String :=
  match d.source with
  | some s => s
  | none => "undefined"

/-- The label name used in a formatted reference:
`document.metadata?.label_metadata?.label_name || 'Unknown'`. -/
def labelNameStr (d : DocModel) : String :=
  jsOr d.labelName "Unknown"

/-- A bare citation token `[f]`. -/
def bareTok (f : List Char) : List Char := '[' :: (f ++ [']'])

/-- Interior of a formatted reference: `f (Label: n)`. -/
def midTok (f n : List Char) : List Char := f ++ lblChars ++ n ++ [')']

/-- A formatted reference `[f (Label: n)]`. -/
def labeledTok (f n : List Char) : List Char := bareTok (midTok f n)

/-- One iteration of the citation-rewrite loop:
`processed = processed.replaceAll(`[${filename}]`, formattedReference)`. -/
def rewriteDoc (s : List Char) (d : DocModel) : List Char :=
  replaceAllL (bareTok (fnameStr d).toList)
    (labeledTok (fnameStr d).toList (labelNameStr d).toList) s

/-- The citation-rewrite loop over all retrieved documents, on character
lists. -/
def citationRewriteL (docs : List DocModel) (resp : List Char) : List Char :=
  docs.foldl rewriteDoc resp

/-- The citation-rewrite loop over all retrieved documents. -/
def citationRewrite (docs : List DocModel) (resp : String) : String :=
  String.mk (citationRewriteL docs resp.toList)

/-- Character lists free of square brackets; sources and label names of this
shape cannot fabricate or destroy citation tokens. -/
def noBr (l : List Char) : Prop := '[' ∉ l ∧ ']' ∉ l

/-- Side conditions on one retrieved document under which the citation
rewrite cannot re-introduce a bare citation token: its interpolated filename
and label name contain no square bracket, and the filename does not contain
the literal infix " (Label: ". -/
def docCiteOk (d : DocModel) : Prop :=
  noBr (fnameStr d).toList ∧ noBr (labelNameStr d).toList
    ∧ ¬ lblChars <:+: (fnameStr d).toList

instance noBr.instDecidable (l : List Char) : Decidable (noBr l) := by
  unfold noBr
  infer_instance

instance docCiteOk.instDecidable (d : DocModel) : Decidable (docCiteOk d) := by
  unfold docCiteOk
  infer_instance

/-- Value stored in `sessionProtectionDataMap` for one user. -/
structure ProtData where
  etag : String
  activityExecutionMap : List (String × Option String)
deriving DecidableEq

/-- The process-wide mutable maps of the module. -/
structure ServerState where
  sessionSequenceMap : List (String × Nat)
  sessionProtectionDataMap : List (String × ProtData)
deriving DecidableEq

/-- One chat message of the request body; `content` may be absent. -/
structure MsgModel where
  role : String
  content : Option String
deriving DecidableEq

/-- Parsed process-content API response: the protection-scope state marker and
`policyActions?.[0]?.action`. -/
structure PCResp where
  protectionScopeState : Option String
  firstAction : Option String
deriving DecidableEq

/-- Oracle for one request: the request data plus the results every external
collaborator would return during this request. `userId` is modelled from the
spec: `getUserId` (security.js, not part of the sources) resolves the user id
from the query string or body and may yield nothing. -/
structure ChatOracle where
  jsonOk : Bool
  messages : Option (List MsgModel)
  ctxSessionId : Option String
  uuid : String
  userId : Option String
  authorizationHeader : Option String
  oboAccessToken : Option String
  oboUserName : Option String
  appAccessToken : Option String
  scopeBody : ScopeApiBody
  scopeEtag : Option String
  promptEval : PCResp
  respEval : PCResp
  acceptedRightsEnv : Option String
  retrievedDocuments : List DocModel
  llmResponse : String
  hasTitle : Bool
deriving DecidableEq

/-- One NDJSON line of a chat response
(`{delta: {content, role}, context: {sessionId}}`). -/
structure DeltaLine where
  content : String
  role : String
  sessionId : String
deriving DecidableEq

/-- HTTP outcome of the handler. -/
inductive ChatResponse
  | badRequest (msg : String)
  | serviceUnavailable (msg : String)
  | ndjson (lines : List DeltaLine)
deriving DecidableEq

/-- Trace of the externally observable calls made while handling one
request. -/
structure Effects where
  identityCalled : Bool
  scopeApiCalled : Bool
  inlineEvalCalls : Nat
  retrievalCalled : Bool
  modelCalled : Bool
  titleModelCalled : Bool
  offlineEnqueued : Bool
  seqPersisted : Bool
deriving DecidableEq

/-- Empty effect trace. -/
def e0 : Effects := ⟨false, false, 0, false, false, false, false, false⟩

/-- Result of handling one request. -/
structure ChatOutcome where
  response : ChatResponse
  state : ServerState
  effects : Effects
deriving DecidableEq

/-- Token triple produced by `getAccessTokensthroughMSAL`. -/
structure PurviewTokens where
  oboToken : String
  userName : String
  appToken : String
deriving DecidableEq

/-- Generic message of the `serviceUnavailable` catch handler. -/
def msg503 : String := "Service temporarily unavailable. Please try again later."

/-- Message of the `badRequest` validation response. -/
def msg400 : String := "Invalid or missing messages in the request body"

/-- Fixed denial message streamed when Purview instructs the app to block. -/
def blockMessage : String :=
  "This action has been blocked due to the security policies enforced by your organization."

/-- Check `authorizationHeader?.startsWith('Bearer ')`. -/
def authHeaderOk (h : Option String) : Bool :=
  match h with
  | some s => strStartsWith s "Bearer "
  | none => false

/-- Embedding of `getPurviewAccessTokens` plus `getAccessTokensthroughMSAL`:
returns the tokens or a thrown error, paired with whether the identity
provider (MSAL on-behalf-of exchange) was actually called. A missing or
malformed header throws before any call; a falsy `accessToken` from either
exchange throws after the identity call. -/
def getPurviewAccessTokensModel (o : ChatOracle) : Except Unit PurviewTokens × Bool :=
  if ¬ authHeaderOk o.authorizationHeader then (.error (), false)
  else if ¬ optTruthy o.oboAccessToken then (.error (), true)
  else if ¬ optTruthy o.appAccessToken then (.error (), true)
  else
    (.ok ⟨o.oboAccessToken.getD "", o.oboUserName.getD "", o.appAccessToken.getD ""⟩,
     true)

/-- Embedding of the protection-scope resolution block of `postChats`: a
cached entry with truthy etag is used directly; otherwise the ProtectionScope
API is invoked, its response processed, and the result stored under the user
id. Returns `(etag, uploadMode, downloadMode, new protection map)` or a thrown
error, paired with whether the scope API was called. -/
def resolveProtection (o : ChatOracle) (st : ServerState) (userId : String) :
    Except Unit (String × String × String × List (String × ProtData)) × Bool :=
  match lookupA st.sessionProtectionDataMap userId with
  | some pd =>
    if pd.etag ≠ "" then
      (.ok (pd.etag, resolveMode pd.activityExecutionMap "uploadText",
            resolveMode pd.activityExecutionMap "downloadText",
            st.sessionProtectionDataMap), false)
    else
      match processProtectionScopeApiResponse o.scopeBody with
      | .error _ => (.error (), true)
      | .ok (am, up, down) =>
        let etagIdentifier := jsOr o.scopeEtag "default"
        (.ok (etagIdentifier, up, down,
              setA st.sessionProtectionDataMap userId ⟨etagIdentifier, am⟩), true)
  | none =>
    match processProtectionScopeApiResponse o.scopeBody with
    | .error _ => (.error (), true)
    | .ok (am, up, down) =>
      let etagIdentifier := jsOr o.scopeEtag "default"
      (.ok (etagIdentifier, up, down,
            setA st.sessionProtectionDataMap userId ⟨etagIdentifier, am⟩), true)

/-- Tail of the handler after response gating passed: build the NDJSON stream
from the processed response, generate a title if the session has none, and
enqueue offline evaluation (advancing the stored sequence by 2) when either
mode is `evaluateOffline`. -/
def finalStage (o : ChatOracle) (st : ServerState) (sessionId : String)
    (processed : String) (upMode downMode : String) (cur : Nat) (e : Effects) :
    ChatOutcome :=
  let e1 := if o.hasTitle then e else { e with titleModelCalled := true }
  if downMode = "evaluateOffline" ∨ upMode = "evaluateOffline" then
    ⟨.ndjson [⟨processed, "assistant", sessionId⟩],
     { st with sessionSequenceMap := setA st.sessionSequenceMap sessionId (cur + 2) },
     { e1 with offlineEnqueued := true, seqPersisted := true }⟩
  else
    ⟨.ndjson [⟨processed, "assistant", sessionId⟩], st, e1⟩

/-- Response gating: when `downloadText` resolved to `evaluateInline`, the
processed answer is evaluated (sequence incremented); a `restrictAccess`
action persists the sequence and returns the fixed block stream. -/
def responseGateStage (o : ChatOracle) (st : ServerState) (sessionId : String)
    (processed : String) (upMode downMode : String) (cur : Nat) (e : Effects) :
    ChatOutcome :=
  if downMode = "evaluateInline" then
    let cur1 := cur + 1
    let e1 := { e with inlineEvalCalls := e.inlineEvalCalls + 1 }
    if jsOr o.respEval.firstAction "default" = "restrictAccess" then
      ⟨.ndjson [⟨blockMessage, "assistant", sessionId⟩],
       { st with sessionSequenceMap := setA st.sessionSequenceMap sessionId cur1 },
       { e1 with seqPersisted := true }⟩
    else finalStage o st sessionId processed upMode downMode cur1 e1
  else finalStage o st sessionId processed upMode downMode cur e

/-- Retrieval, Tier-2 label filtering, model invocation and citation
rewriting, followed by response gating. The filtered documents feed the model
call, whose text the oracle supplies. -/
def answerStage (o : ChatOracle) (st : ServerState) (sessionId : String)
    (upMode downMode : String) (cur : Nat) (e : Effects) : ChatOutcome :=
  let e1 := { e with retrievalCalled := true }
  let acceptedAccessRight := strToLower (o.acceptedRightsEnv.getD "default")
  let _filteredDocuments := labelFilterDocs acceptedAccessRight o.retrievedDocuments
  let e2 := { e1 with modelCalled := true }
  let processed := citationRewrite o.retrievedDocuments o.llmResponse
  responseGateStage o st sessionId processed upMode downMode cur e2

/-- Embedding of `postChats` for one request: JSON parsing, validation, token
acquisition, protection-scope resolution, prompt gating, retrieval/answering,
response gating, title generation and offline reporting, with every `throw`
routed to the generic 503 catch handler. -/
def postChatsModel (o : ChatOracle) (st : ServerState) : ChatOutcome :=
  if ¬ o.jsonOk then ⟨.serviceUnavailable msg503, st, e0⟩
  else
    match o.messages with
    | none => ⟨.serviceUnavailable msg503, st, e0⟩
    | some msgs =>
      match msgs.getLast? with
      | none => ⟨.serviceUnavailable msg503, st, e0⟩
      | some lastMsg =>
        let sessionId := jsOr o.ctxSessionId o.uuid
        if ¬ optTruthy lastMsg.content ∨ ¬ optTruthy o.userId ∨ sessionId = "" then
          ⟨.badRequest msg400, st, e0⟩
        else
          let userId := o.userId.getD ""
          let currentSequence := (lookupA st.sessionSequenceMap sessionId).getD 0
          match getPurviewAccessTokensModel o with
          | (.error _, idCalled) =>
            ⟨.serviceUnavailable msg503, st, { e0 with identityCalled := idCalled }⟩
          | (.ok _toks, _) =>
            match resolveProtection o st userId with
            | (.error _, scopeCalled) =>
              ⟨.serviceUnavailable msg503, st,
               { e0 with identityCalled := true, scopeApiCalled := scopeCalled }⟩
            | (.ok (_etagIdentifier, upMode, downMode, newProtMap), scopeCalled) =>
              let st1 : ServerState := { st with sessionProtectionDataMap := newProtMap }
              let e1 := { e0 with identityCalled := true, scopeApiCalled := scopeCalled }
              if upMode = "evaluateInline" then
                let cur1 := currentSequence + 1
                let e2 := { e1 with inlineEvalCalls := 1 }
                if jsOr o.promptEval.firstAction "default" = "restrictAccess" then
                  ⟨.ndjson [⟨blockMessage, "assistant", sessionId⟩],
                   { st1 with
                       sessionSequenceMap := setA st1.sessionSequenceMap sessionId cur1 },
                   { e2 with seqPersisted := true }⟩
                else answerStage o st1 sessionId upMode downMode cur1 e2
              else answerStage o st1 sessionId upMode downMode currentSequence e1

/-- Session id a request resolves to: `chatContext?.sessionId || uuidv4()`. -/
def resolvedSessionId (o : ChatOracle) : String :=
  jsOr o.ctxSessionId o.uuid

/-- Serial processing of a list of requests, returning the final state. -/
def runChats (os : List ChatOracle) (st : ServerState) : ServerState :=
  os.foldl (fun s o => (postChatsModel o s).state) st

/-- Serial processing of a list of requests, returning the final state and
the per-request effect traces. -/
def runChatsTrace : List ChatOracle → ServerState → ServerState × List Effects
  | [], st => (st, [])
  | o :: t, st =>
    let out := postChatsModel o st
    let (st', es) := runChatsTrace t out.state
    (st', out.effects :: es)

/-- Per-request increment as the specification counts it: 1 per inline
evaluation performed plus 2 for an offline enqueue. -/
def claimedIncrement (e : Effects) : Nat :=
  e.inlineEvalCalls + (if e.offlineEnqueued then 2 else 0)

/-- Per-request increment actually written back to the stored counter: the
claimed increment when the request persisted the counter, 0 otherwise. -/
def persistedIncrement (e : Effects) : Nat :=
  if e.seqPersisted then claimedIncrement e else 0

/-- Stored sequence value for a session, as the handler reads it. -/
def seqOf (st : ServerState) (sid : String) : Nat :=
  (lookupA st.sessionSequenceMap sid).getD 0


/-- Empty server state (fresh process). -/
def stEmpty : ServerState := ⟨[], []⟩

/-- Server state whose protection cache maps `user1` to an entry that puts
`uploadText` in inline mode. -/
def stPromptBlock : ServerState :=
  ⟨[], [("user1", ⟨"etag-1", [("uploadText", some "evaluateInline")]⟩)]⟩

/-- Server state whose protection cache maps `user1` to an entry that puts
`downloadText` in inline mode. -/
def stRespBlock : ServerState :=
  ⟨[], [("user1", ⟨"etag-1", [("downloadText", some "evaluateInline")]⟩)]⟩

/-- Baseline oracle for a well-formed request by `user1` with one message,
a valid bearer header, successful token exchanges, a scope response with no
entries, permissive evaluations, one labelled retrieved document and a fixed
model answer. -/
def oBase : ChatOracle :=
  ⟨true, some [⟨"user", some "How to Search and Book Rentals?"⟩], some "123",
   "uuid-1", some "user1", some "Bearer token", some "obo-token",
   some "user@contoso.com", some "app-token", ⟨some []⟩, some "etag-1",
   ⟨none, none⟩, ⟨none, none⟩, none,
   [⟨some "doc1.pdf", some "lbl-1", some "General", .ok (some "view")⟩],
   "See [doc1.pdf].", true⟩

/-- Oracle for a prompt blocked inline: like `oBase` but the prompt
evaluation returns `restrictAccess`. -/
def oPromptBlock : ChatOracle :=
  { oBase with promptEval := ⟨none, some "restrictAccess"⟩ }

/-- Oracle for a response blocked inline: like `oBase` but the response
evaluation returns `restrictAccess`. -/
def oRespBlock : ChatOracle :=
  { oBase with respEval := ⟨none, some "restrictAccess"⟩ }

/-- Oracle with a syntactically valid body whose `messages` array is empty. -/
def oEmptyMessages : ChatOracle :=
  { oBase with messages := some [] }

/-- Oracle with no Authorization header. -/
def oNoAuth : ChatOracle :=
  { oBase with authorizationHeader := none }

/-- Oracle with a well-formed Authorization header whose on-behalf-of
exchange yields no access token. -/
def oNoOboToken : ChatOracle :=
  { oBase with oboAccessToken := none }

/-! ### Association-map lemmas -/

theorem lookupA_setA_self {α : Type} (m : List (String × α)) (k : String) (v : α) :
    lookupA (setA m k v) k = some v := by
  induction m with
  | nil => simp [setA, lookupA]
  | cons h t ih =>
    obtain ⟨k', v'⟩ := h
    by_cases hk : k' = k
    · simp [setA, hk, lookupA]
    · simp [setA, hk, lookupA, ih]

theorem lookupA_setA_other {α : Type} (m : List (String × α)) (k k' : String) (v : α)
    (h : k' ≠ k) : lookupA (setA m k v) k' = lookupA m k' := by
  have hk' : k ≠ k' := fun h' => h h'.symm
  induction m with
  | nil => simp [setA, lookupA, hk']
  | cons hd t ih =>
    obtain ⟨k₀, v₀⟩ := hd
    by_cases hk : k₀ = k
    · subst hk
      simp [setA, lookupA, hk']
    · simp [setA, hk, lookupA, ih]

theorem lookupA_insertActivity_other (mode : Option String)
    (m : List (String × Option String)) (a b : String) (h : b ≠ a) :
    lookupA (insertActivity mode m a) b = lookupA m b := by
  unfold insertActivity
  split
  · exact lookupA_setA_other m a b mode h
  · rfl

theorem lookupA_insertActivity_self (mode : Option String)
    (m : List (String × Option String)) (a : String) :
    lookupA (insertActivity mode m a) a =
      if mode = some "evaluateInline" then some mode
      else
        match lookupA m a with
        | some v => some v
        | none => some mode := by
  unfold insertActivity
  rcases hm : lookupA m a with _ | v
  · simp only [hm, Option.isNone_none, true_or, if_true, lookupA_setA_self]
    split <;> rfl
  · by_cases hmode : mode = some "evaluateInline"
    · simp [hm, hmode, lookupA_setA_self]
    · simp [hm, hmode]

theorem lookupA_foldIns_not_mem (mode : Option String) (l : List String)
    (m : List (String × Option String)) (a : String) (h : a ∉ l) :
    lookupA (l.foldl (insertActivity mode) m) a = lookupA m a := by
  induction l generalizing m with
  | nil => rfl
  | cons b t ih =>
    simp only [List.mem_cons, not_or] at h
    simp only [List.foldl_cons]
    rw [ih (insertActivity mode m b) h.2,
      lookupA_insertActivity_other mode m b a h.1]

theorem lookupA_foldIns_mem (mode : Option String) (l : List String)
    (m : List (String × Option String)) (a : String) (h : a ∈ l) :
    lookupA (l.foldl (insertActivity mode) m) a =
      if mode = some "evaluateInline" then some mode
      else
        match lookupA m a with
        | some v => some v
        | none => some mode := by
  induction l generalizing m with
  | nil => cases h
  | cons b t ih =>
    simp only [List.foldl_cons]
    by_cases hb : a = b
    · subst hb
      by_cases ht : a ∈ t
      · rw [ih (insertActivity mode m a) ht, lookupA_insertActivity_self]
        by_cases hmode : mode = some "evaluateInline"
        · simp [hmode]
        · simp only [hmode, if_false]
          rcases hm : lookupA m a with _ | v <;> simp
      · rw [lookupA_foldIns_not_mem mode t _ a ht, lookupA_insertActivity_self]
    · have ht : a ∈ t := by
        rcases List.mem_cons.mp h with h' | h'
        · exact absurd h' hb
        · exact h'
      rw [ih (insertActivity mode m b) ht,
        lookupA_insertActivity_other mode m b a hb]

theorem lookupA_processEntry (m : List (String × Option String)) (e : ScopeEntry)
    (a : String) :
    lookupA (processEntry m e) a =
      if entryHasActivity a e then
        if e.executionMode = some "evaluateInline" then some e.executionMode
        else
          match lookupA m a with
          | some v => some v
          | none => some e.executionMode
      else lookupA m a := by
  unfold processEntry entryHasActivity
  by_cases h : a ∈ activitiesOf e
  · rw [lookupA_foldIns_mem e.executionMode _ m a h]
    simp [h]
  · rw [lookupA_foldIns_not_mem e.executionMode _ m a h]
    simp [h]

theorem lookupA_buildMap_general (entries : List ScopeEntry)
    (m : List (String × Option String)) (a : String) :
    lookupA (entries.foldl processEntry m) a =
      if anyInline entries a then some (some "evaluateInline")
      else
        match lookupA m a with
        | some v => some v
        | none => firstModeFor entries a := by
  induction entries generalizing m with
  | nil =>
    simp only [List.foldl_nil, anyInline, List.any_nil, if_false, firstModeFor,
      List.find?_nil, Option.map_none']
    rcases lookupA m a with _ | v <;> rfl
  | cons e t ih =>
    simp only [List.foldl_cons]
    rw [ih (processEntry m e), lookupA_processEntry]
    have hany : anyInline (e :: t) a =
        ((entryHasActivity a e && e.executionMode == some "evaluateInline")
          || anyInline t a) := by
      simp [anyInline]
    have hfirst : firstModeFor (e :: t) a =
        if entryHasActivity a e then some e.executionMode else firstModeFor t a := by
      simp only [firstModeFor, List.find?_cons]
      split <;> simp_all
    by_cases he : entryHasActivity a e
    · by_cases hm : e.executionMode = some "evaluateInline"
      · by_cases ht : anyInline t a
        · simp [hany, he, hm, ht]
        · simp [hany, he, hm, ht]
      · by_cases ht : anyInline t a
        · simp [hany, hfirst, he, hm, ht]
        · rcases hLm : lookupA m a with _ | v <;>
            simp [hany, hfirst, he, hm, ht, hLm]
    · by_cases ht : anyInline t a
      · simp [hany, hfirst, he, ht]
      · rcases hLm : lookupA m a with _ | v <;>
          simp [hany, hfirst, he, ht, hLm]

theorem firstModeFor_none_anyInline (entries : List ScopeEntry) (a : String)
    (h : firstModeFor entries a = none) : anyInline entries a = false := by
  simp only [firstModeFor, Option.map_eq_none', List.find?_eq_none] at h
  simp only [anyInline, List.any_eq_false]
  intro e he hb
  rw [Bool.and_eq_true] at hb
  exact h e he hb.1

/-- C4: in `processProtectionScopeApiResponse`, when an activity name appears
in several scope entries the recorded mode is `evaluateInline` as soon as any
entry specifies it, otherwise the mode of the first entry mentioning the
activity; an activity mentioned by no entry is absent from the map and
resolves to `"default"`. -/
theorem scope_tiebreak_c4 (entries : List ScopeEntry) (a : String) :
    (anyInline entries a = true →
      lookupA (buildActivityMap entries) a = some (some "evaluateInline"))
    ∧ (anyInline entries a = false →
      lookupA (buildActivityMap entries) a = firstModeFor entries a)
    ∧ (firstModeFor entries a = none →
      resolveMode (buildActivityMap entries) a = "default") := by
  have hbase : lookupA ([] : List (String × Option String)) a = none := rfl
  refine ⟨fun h => ?_, fun h => ?_, fun h => ?_⟩
  · unfold buildActivityMap
    rw [lookupA_buildMap_general, h]
    rfl
  · unfold buildActivityMap
    rw [lookupA_buildMap_general, h]
    simp [hbase]
  · have hany := firstModeFor_none_anyInline entries a h
    unfold resolveMode buildActivityMap
    rw [lookupA_buildMap_general, hany]
    simp [hbase, h, jsOr2]

/-- Witness for C4 at a concrete scope response: `uploadText` appears in two
entries, one `evaluateOffline` (first) and one `evaluateInline` (second);
inline wins; `downloadText` keeps the first mode seen; an unmentioned
activity resolves to `"default"`. -/
theorem scope_tiebreak_c4_witness :
    anyInline
        [⟨some "uploadText,downloadText", some "evaluateOffline", [some "app"]⟩,
         ⟨some "uploadText", some "evaluateInline", [some "app"]⟩]
        "uploadText" = true
    ∧ lookupA
        (buildActivityMap
          [⟨some "uploadText,downloadText", some "evaluateOffline", [some "app"]⟩,
           ⟨some "uploadText", some "evaluateInline", [some "app"]⟩])
        "uploadText" = some (some "evaluateInline") := by
  refine ⟨by decide, ?_⟩
  exact
    (scope_tiebreak_c4
      [⟨some "uploadText,downloadText", some "evaluateOffline", [some "app"]⟩,
       ⟨some "uploadText", some "evaluateInline", [some "app"]⟩]
      "uploadText").1 (by decide)

/-! ### Label filter (Tier-2 filtering) -/

theorem containsTok_nil (s : List Char) : containsTok s [] = true := by
  cases s with
  | nil => rfl
  | cons c t => simp [containsTok, List.isPrefixOf]

theorem labelTask_eq_keep (acc : String) (d : DocModel) :
    labelTask acc d = if labelKeep acc d then some d else none := by
  unfold labelTask labelKeep
  rcases d.labelId with _ | lid
  · rfl
  · by_cases hlid : lid = ""
    · simp [hlid]
    · rcases d.lookup with _ | raw
      · simp [hlid]
      · rcases raw with _ | s <;> simp [hlid]

/-- C1 counterexample: a retrieved document with no `labelId` is removed by
the filter, not passed through as the claim states. -/
theorem label_filter_c1_counterexample :
    (⟨some "a.txt", none, some "General", .ok (some "read")⟩ : DocModel).labelId = none
    ∧ labelFilterDocs "default"
        [⟨some "a.txt", none, some "General", .ok (some "read")⟩] = [] := by
  exact ⟨rfl, rfl⟩

/-- C1 amended: the label filter keeps exactly the documents that carry a
truthy `labelId`, whose lookup succeeded, and whose lower-cased rights value
is contained in the configured accepted-rights string; documents without a
`labelId` and documents whose lookup failed are removed, each decision being
made per document without aborting the batch. -/
theorem label_filter_c1_amended (accepted : String) (docs : List DocModel) :
    labelFilterDocs accepted docs = docs.filter (labelKeep accepted) := by
  induction docs with
  | nil => rfl
  | cons d t ih =>
    simp only [labelFilterDocs, List.map_cons, List.filterMap_cons, List.filter_cons,
      labelTask_eq_keep, id] at ih ⊢
    by_cases h : labelKeep accepted d
    · simp only [h, if_true]
      rw [ih]
    · simp only [h, if_false, Bool.false_eq_true]
      rw [ih]

/-- C9: a document whose label lookup succeeds but reports no string rights
value gets the empty string as rights value and is kept for every configured
accepted-rights string, because every string contains the empty string
(fail-open), unlike the fail-closed treatment of lookup errors. -/
theorem label_rights_missing_c9 (acc : String) (d : DocModel) (lid : String)
    (h1 : d.labelId = some lid) (h2 : lid ≠ "") (h3 : d.lookup = .ok none) :
    labelTask acc d = some d ∧ labelKeep acc d = true
    ∧ strIncludes acc "" = true := by
  have hinc : strIncludes acc "" = true := containsTok_nil acc.toList
  refine ⟨?_, ?_, hinc⟩
  · unfold labelTask
    rw [h1, h3]
    simp [h2, hinc]
  · unfold labelKeep
    rw [h1, h3]
    simp [h2, hinc]

/-- Witness for C9: a concrete document with a labelId and a lookup returning
no string rights value is kept even for an empty accepted-rights string. -/
theorem label_rights_missing_c9_witness :
    labelTask "" (⟨some "b.txt", some "lbl-1", some "Secret", .ok none⟩ : DocModel)
      = some ⟨some "b.txt", some "lbl-1", some "Secret", .ok none⟩ :=
  (label_rights_missing_c9 "" ⟨some "b.txt", some "lbl-1", some "Secret", .ok none⟩
    "lbl-1" rfl (by decide) rfl).1

/-! ### Leftmost-occurrence and replaceAll lemmas -/

theorem infix_iff_exists_drop {q s : List Char} :
    q <:+: s ↔ ∃ i, q <+: s.drop i := by
  constructor
  · rintro ⟨x, y, rfl⟩
    refine ⟨x.length, ?_⟩
    rw [List.append_assoc, List.drop_append_eq_append_drop]
    simp
  · rintro ⟨i, t, ht⟩
    refine ⟨s.take i, t, ?_⟩
    rw [List.append_assoc, ht, List.take_append_drop]

theorem findOcc_none_spec {p s : List Char} (h : findOcc p s = none) :
    ∀ i, ¬ p <+: s.drop i := by
  induction s with
  | nil =>
    intro i hp
    rw [List.drop_nil, List.prefix_nil] at hp
    subst hp
    simp [findOcc] at h
  | cons c t ih =>
    by_cases hpre : p.isPrefixOf (c :: t) = true
    · simp [findOcc, hpre] at h
    · simp only [findOcc, hpre, if_false] at h
      have ht : findOcc p t = none := by
        rcases hfo : findOcc p t with _ | k
        · rfl
        · rw [hfo] at h
          cases h
      intro i
      cases i with
      | zero =>
        rw [List.drop_zero]
        intro hp
        exact hpre ((List.isPrefixOf_iff_prefix).mpr hp)
      | succ j =>
        rw [List.drop_succ_cons]
        exact ih ht j

theorem findOcc_some_prefix {p s : List Char} {i : Nat} (h : findOcc p s = some i) :
    p <+: s.drop i := by
  induction s generalizing i with
  | nil =>
    by_cases hp : p.isEmpty = true
    · rw [List.isEmpty_iff] at hp
      subst hp
      simp
    · simp [findOcc, hp] at h
  | cons c t ih =>
    by_cases hpre : p.isPrefixOf (c :: t) = true
    · simp only [findOcc, hpre, if_true, Option.some.injEq] at h
      subst h
      rw [List.drop_zero]
      exact (List.isPrefixOf_iff_prefix).mp hpre
    · simp only [findOcc, hpre, if_false] at h
      rcases Option.map_eq_some'.mp h with ⟨k, hk, rfl⟩
      rw [List.drop_succ_cons]
      exact ih hk

theorem findOcc_some_min {p s : List Char} {i : Nat} (h : findOcc p s = some i) :
    ∀ j, j < i → ¬ p <+: s.drop j := by
  induction s generalizing i with
  | nil =>
    by_cases hp : p.isEmpty = true
    · simp only [findOcc, hp, if_true, Option.some.injEq] at h
      subst h
      omega
    · simp [findOcc, hp] at h
  | cons c t ih =>
    by_cases hpre : p.isPrefixOf (c :: t) = true
    · simp only [findOcc, hpre, if_true, Option.some.injEq] at h
      subst h
      omega
    · simp only [findOcc, hpre, if_false] at h
      rcases Option.map_eq_some'.mp h with ⟨k, hk, rfl⟩
      intro j hj
      cases j with
      | zero =>
        rw [List.drop_zero]
        intro hp
        exact hpre ((List.isPrefixOf_iff_prefix).mpr hp)
      | succ j' =>
        rw [List.drop_succ_cons]
        exact ih hk j' (by omega)

theorem findOcc_some_bound {p s : List Char} {i : Nat} (hp : p ≠ [])
    (h : findOcc p s = some i) : i + p.length ≤ s.length ∧ 1 ≤ p.length := by
  have hpre := findOcc_some_prefix h
  have hlen := hpre.length_le
  rw [List.length_drop] at hlen
  have hplen : 1 ≤ p.length := by
    cases p with
    | nil => exact absurd rfl hp
    | cons a b => simp
  have his : i ≤ s.length := by
    by_contra hlt
    push_neg at hlt
    have hnil : s.drop i = [] := List.drop_eq_nil_of_le (by omega)
    rw [hnil, List.prefix_nil] at hpre
    exact hp hpre
  exact ⟨by omega, hplen⟩

theorem findOcc_complete {p s : List Char} (h : ∃ i, p <+: s.drop i) :
    ∃ j, findOcc p s = some j := by
  rcases hfo : findOcc p s with _ | j
  · obtain ⟨i, hi⟩ := h
    exact absurd hi (findOcc_none_spec hfo i)
  · exact ⟨j, rfl⟩

theorem replaceAllGo_of_none {p r s : List Char} (h : findOcc p s = none) :
    ∀ fuel, replaceAllGo p r fuel s = s := by
  intro fuel
  cases fuel with
  | zero => rfl
  | succ f => simp [replaceAllGo, h]

theorem replaceAllGo_fuel {p r : List Char} (hp : p ≠ []) :
    ∀ fuel₁ fuel₂ s, s.length ≤ fuel₁ → s.length ≤ fuel₂ →
      replaceAllGo p r fuel₁ s = replaceAllGo p r fuel₂ s := by
  intro fuel₁
  induction fuel₁ with
  | zero =>
    intro fuel₂ s h1 _
    have hs : s = [] := List.eq_nil_of_length_eq_zero (by omega)
    subst hs
    have hfo : findOcc p [] = none := by
      simp [findOcc, List.isEmpty_iff, hp]
    rw [replaceAllGo_of_none hfo 0, replaceAllGo_of_none hfo fuel₂]
  | succ f ih =>
    intro fuel₂ s h1 h2
    rcases hfo : findOcc p s with _ | i
    · rw [replaceAllGo_of_none hfo (f + 1), replaceAllGo_of_none hfo fuel₂]
    · obtain ⟨hbound, hplen⟩ := findOcc_some_bound hp hfo
      cases fuel₂ with
      | zero =>
        have hs : s = [] := List.eq_nil_of_length_eq_zero (by omega)
        rw [hs] at hfo
        simp [findOcc, List.isEmpty_iff, hp] at hfo
      | succ g =>
        simp only [replaceAllGo, hfo]
        have hdrop : (s.drop (i + p.length)).length ≤ f := by
          rw [List.length_drop]
          omega
        have hdrop2 : (s.drop (i + p.length)).length ≤ g := by
          rw [List.length_drop]
          omega
        rw [ih g (s.drop (i + p.length)) hdrop hdrop2]

theorem replaceAllL_of_none {p r s : List Char} (h : findOcc p s = none) :
    replaceAllL p r s = s :=
  replaceAllGo_of_none h s.length

theorem replaceAllL_of_some {p r s : List Char} {i : Nat} (hp : p ≠ [])
    (h : findOcc p s = some i) :
    replaceAllL p r s = s.take i ++ (r ++ replaceAllL p r (s.drop (i + p.length))) := by
  obtain ⟨hbound, hplen⟩ := findOcc_some_bound hp h
  unfold replaceAllL
  obtain ⟨n, hn⟩ : ∃ n, s.length = n + 1 := ⟨s.length - 1, by omega⟩
  rw [hn]
  simp only [replaceAllGo, h]
  rw [List.append_assoc]
  congr 2
  exact replaceAllGo_fuel hp n (s.drop (i + p.length)).length (s.drop (i + p.length))
    (by rw [List.length_drop]; omega) le_rfl

theorem infix_append_cases {q u v : List Char} (h : q <:+: u ++ v) :
    q <:+: u ∨ q <:+: v
      ∨ ∃ k, 0 < k ∧ k < q.length ∧ q.take k <:+ u ∧ q.drop k <+: v := by
  obtain ⟨x, y, hxy⟩ := h
  rcases List.append_eq_append_iff.mp hxy.symm with ⟨a', hxq, hv⟩ | ⟨c', hu, hy⟩
  · rcases List.append_eq_append_iff.mp hxq with ⟨b', hub, hq⟩ | ⟨c₂, hx, ha'⟩
    · by_cases hb : b' = []
      · subst hb
        rw [List.nil_append] at hq
        right
        left
        exact ⟨[], y, by rw [hv, ← hq, List.nil_append]⟩
      · by_cases ha : a' = []
        · subst ha
          rw [List.append_nil] at hq
          left
          exact ⟨x, [], by rw [hub, ← hq, List.append_nil]⟩
        · right
          right
          refine ⟨b'.length, List.length_pos.mpr hb, ?_, ?_, ?_⟩
          · rw [hq, List.length_append]
            have := List.length_pos.mpr ha
            omega
          · have htk : q.take b'.length = b' := by
              rw [hq, List.take_append_eq_append_take, List.take_length,
                Nat.sub_self, List.take_zero, List.append_nil]
            rw [htk, hub]
            exact ⟨x, rfl⟩
          · have hdk : q.drop b'.length = a' := by
              rw [hq, List.drop_append_eq_append_drop, List.drop_length,
                Nat.sub_self, List.drop_zero, List.nil_append]
            rw [hdk, hv]
            exact ⟨y, rfl⟩
    · right
      left
      exact ⟨c₂, y, by rw [hv, ha', List.append_assoc]⟩
  · left
    exact ⟨x, c', by rw [hu, List.append_assoc]⟩

/-! ### Bracket-token structure lemmas -/

theorem bareTok_ne_nil (f : List Char) : bareTok f ≠ [] := by
  simp [bareTok]

theorem bareTok_length (f : List Char) : (bareTok f).length = f.length + 2 := by
  simp [bareTok]

theorem noBr_append {l₁ l₂ : List Char} :
    noBr (l₁ ++ l₂) ↔ noBr l₁ ∧ noBr l₂ := by
  simp only [noBr, List.mem_append, not_or]
  tauto

theorem noBr_lblChars : noBr lblChars := by
  constructor <;> decide

theorem noBr_midTok {f n : List Char} (hf : noBr f) (hn : noBr n) :
    noBr (midTok f n) := by
  unfold midTok
  rw [noBr_append, noBr_append, noBr_append]
  exact ⟨⟨⟨hf, noBr_lblChars⟩, hn⟩, by constructor <;> decide⟩

theorem lblChars_infix_midTok (f n : List Char) : lblChars <:+: midTok f n := by
  exact ⟨f, n ++ [')'], by simp [midTok]⟩

theorem midTok_ne_of_not_lbl {f c : List Char} (hc : ¬ lblChars <:+: c) :
    ∀ n, c ≠ midTok f n := by
  intro n heq
  exact hc (heq ▸ lblChars_infix_midTok f n)

theorem prefix_bareTok_eq {b m : List Char} (hm : ']' ∉ m)
    (h : bareTok b <+: bareTok m) : b = m := by
  unfold bareTok at h
  rw [List.cons_prefix_cons] at h
  have h2 := h.2
  rcases Nat.lt_trichotomy b.length m.length with hlt | heq | hgt
  · exfalso
    have hlen : (b ++ [']']).length ≤ m.length := by
      rw [List.length_append]
      simp only [List.length_singleton]
      omega
    have hpm : b ++ [']'] <+: m :=
      List.prefix_of_prefix_length_le h2 (List.prefix_append m [']']) hlen
    exact hm (hpm.subset (by simp))
  · have : b ++ [']'] = m ++ [']'] :=
      h2.eq_of_length (by simp [heq])
    exact List.append_cancel_right this
  · exfalso
    have := h2.length_le
    simp only [List.length_append, List.length_singleton] at this
    omega

theorem infix_bareTok_eq {b m : List Char} (hm : noBr m)
    (h : bareTok b <:+: bareTok m) : b = m := by
  obtain ⟨x, y, hxy⟩ := h
  cases x with
  | nil =>
    rw [List.nil_append] at hxy
    exact prefix_bareTok_eq hm.2 ⟨y, hxy⟩
  | cons z x' =>
    exfalso
    have hxy' : z :: (x' ++ bareTok b ++ y) = ('[' : Char) :: (m ++ [']']) := by
      simpa [bareTok, List.append_assoc] using hxy
    injection hxy' with h1 h2
    have hmem : ('[' : Char) ∈ m ++ [']'] := by
      rw [← h2]
      simp [bareTok]
    rcases List.mem_append.mp hmem with hmm | hmr
    · exact hm.1 hmm
    · simp at hmr

theorem take_bareTok_no_rbracket {c : List Char} (hc : ']' ∉ c) {k : Nat}
    (hk : k ≤ c.length + 1) : ']' ∉ (bareTok c).take k := by
  intro hmem
  have hpre : (bareTok c).take k <+: ('[' :: c) ++ [']'] := by
    have hshape : bareTok c = ('[' :: c) ++ [']'] := by simp [bareTok]
    rw [← hshape]
    exact List.take_prefix k (bareTok c)
  have hk' : ((bareTok c).take k).length ≤ ('[' :: c).length := by
    rw [List.length_take, bareTok_length]
    simp only [List.length_cons]
    omega
  have hpre2 : (bareTok c).take k <+: '[' :: c :=
    List.prefix_of_prefix_length_le hpre (List.prefix_append _ _) hk'
  have : (']' : Char) ∈ '[' :: c := hpre2.subset hmem
  rcases List.mem_cons.mp this with h | h
  · cases h
  · exact hc h

theorem suffix_bareTok_rbracket_mem {m v : List Char} (hv : v <:+ bareTok m)
    (hne : v ≠ []) : (']' : Char) ∈ v := by
  obtain ⟨w, hw⟩ := hv
  have h1 : (w ++ v).getLast? = v.getLast? := List.getLast?_append_of_ne_nil w hne
  have h3 : (bareTok m).getLast? = some ']' := by
    have hshape : bareTok m = ('[' :: m) ++ [']'] := by simp [bareTok]
    rw [hshape, List.getLast?_append_of_ne_nil ('[' :: m) (by simp)]
    rfl
  have h4 : v.getLast? = some ']' := by
    rw [← h1, hw, h3]
  exact List.mem_of_mem_getLast? h4

theorem head_eq_of_prefix_cons {x c : Char} {u v : List Char}
    (h : x :: u <+: c :: v) : x = c := by
  obtain ⟨t, ht⟩ := h
  injection ht

theorem drop_bareTok_tail {c : List Char} {k : Nat} (hk1 : 1 ≤ k)
    (hklen : k < (bareTok c).length) :
    ∃ z w, (bareTok c).drop k = z :: w ∧ z ∈ c ++ [']'] := by
  have hdrop : (bareTok c).drop k = (c ++ [']']).drop (k - 1) := by
    unfold bareTok
    obtain ⟨k', rfl⟩ : ∃ k', k = k' + 1 := ⟨k - 1, by omega⟩
    rw [List.drop_succ_cons]
    congr 1
  rcases hd : (bareTok c).drop k with _ | ⟨z, w⟩
  · exfalso
    have := List.length_drop k (bareTok c)
    rw [hd] at this
    simp at this
    omega
  · refine ⟨z, w, rfl, ?_⟩
    have hsub : z ∈ (c ++ [']']).drop (k - 1) := by
      rw [← hdrop, hd]
      simp
    exact (List.drop_suffix (k - 1) (c ++ [']'])).subset hsub

theorem bareTok_not_infix_replaceAll {b c : List Char} (a : List Char)
    (hb : noBr b) (hc : noBr c) (hcb : c ≠ b)
    (s : List Char) (hs : c = a ∨ ¬ bareTok c <:+: s) :
    ¬ bareTok c <:+: replaceAllL (bareTok a) (bareTok b) s := by
  rcases hfo : findOcc (bareTok a) s with _ | i
  · rw [replaceAllL_of_none hfo]
    rcases hs with rfl | hs
    · intro hocc
      obtain ⟨j, hj⟩ := infix_iff_exists_drop.mp hocc
      exact findOcc_none_spec hfo j hj
    · exact hs
  · obtain ⟨hbound, hplen⟩ := findOcc_some_bound (bareTok_ne_nil a) hfo
    rw [replaceAllL_of_some (bareTok_ne_nil a) hfo]
    intro hocc
    have hrec : ¬ bareTok c <:+:
        replaceAllL (bareTok a) (bareTok b) (s.drop (i + (bareTok a).length)) := by
      apply bareTok_not_infix_replaceAll a hb hc hcb
      rcases hs with rfl | hs
      · exact Or.inl rfl
      · right
        intro hocc'
        exact hs (hocc'.trans (List.drop_suffix _ s).isInfix)
    rcases infix_append_cases hocc with hcase | hcase
    · rcases hs with rfl | hs
      · obtain ⟨j, hj⟩ := infix_iff_exists_drop.mp hcase
        have hjlt : j < i := by
          by_contra hge
          push_neg at hge
          have hnil : (s.take i).drop j = [] := by
            apply List.drop_eq_nil_of_le
            rw [List.length_take]
            omega
          rw [hnil, List.prefix_nil] at hj
          exact bareTok_ne_nil c hj
        rw [List.drop_take] at hj
        have hj' : bareTok c <+: s.drop j := hj.trans (List.take_prefix _ _)
        exact findOcc_some_min hfo j hjlt hj'
      · exact hs (hcase.trans (List.take_prefix i s).isInfix)
    rcases hcase with hcase | hcase
    · rcases infix_append_cases hcase with h2 | h2
      · exact hcb (infix_bareTok_eq hb h2)
      rcases h2 with h2 | h2
      · exact hrec h2
      · obtain ⟨k, hk0, hklen, htk, _⟩ := h2
        have hne : (bareTok c).take k ≠ [] := by
          intro hnil
          have hlen0 := congrArg List.length hnil
          rw [List.length_take, bareTok_length] at hlen0
          simp at hlen0
          omega
        have hmem := suffix_bareTok_rbracket_mem htk hne
        have hnot := take_bareTok_no_rbracket hc.2 (k := k) (by
          rw [bareTok_length] at hklen
          omega)
        exact hnot hmem
    · obtain ⟨k, hk0, hklen, _, hdk⟩ := hcase
      obtain ⟨z, w, hzw, hzmem⟩ := drop_bareTok_tail hk0 hklen
      rw [hzw] at hdk
      have hshape : bareTok b ++ replaceAllL (bareTok a) (bareTok b)
            (s.drop (i + (bareTok a).length)) =
          '[' :: ((b ++ [']']) ++ replaceAllL (bareTok a) (bareTok b)
            (s.drop (i + (bareTok a).length))) := by
        simp [bareTok]
      rw [hshape] at hdk
      have hz : z = '[' := head_eq_of_prefix_cons hdk
      rcases List.mem_append.mp (hz ▸ hzmem) with hm | hm
      · exact hc.1 hm
      · simp at hm
termination_by s.length
decreasing_by
  rw [List.length_drop]
  have hlb := bareTok_length a
  omega

theorem bareTok_survives_replaceAll {a m : List Char} (b : List Char)
    (ha : noBr a) (hm : noBr m) (hma : m ≠ a)
    (s : List Char) (hs : bareTok m <:+: s) :
    bareTok m <:+: replaceAllL (bareTok a) (bareTok b) s := by
  rcases hfo : findOcc (bareTok a) s with _ | i
  · rw [replaceAllL_of_none hfo]
    exact hs
  · obtain ⟨hbound, hplen⟩ := findOcc_some_bound (bareTok_ne_nil a) hfo
    rw [replaceAllL_of_some (bareTok_ne_nil a) hfo]
    obtain ⟨x, y, hxy⟩ := hs
    have hpre := findOcc_some_prefix hfo
    by_cases hA : i + (bareTok a).length ≤ x.length
    · have hdropdecomp : s.drop (i + (bareTok a).length)
          = x.drop (i + (bareTok a).length) ++ (bareTok m ++ y) := by
        rw [← hxy, List.append_assoc, List.drop_append_eq_append_drop,
          Nat.sub_eq_zero_of_le hA, List.drop_zero]
      have hTin : bareTok m <:+: s.drop (i + (bareTok a).length) := by
        refine ⟨x.drop (i + (bareTok a).length), y, ?_⟩
        rw [List.append_assoc, hdropdecomp]
      have hrec := bareTok_survives_replaceAll b ha hm hma _ hTin
      exact (hrec.trans (List.suffix_append (bareTok b) _).isInfix).trans
        (List.suffix_append (s.take i) _).isInfix
    · by_cases hB : x.length + (bareTok m).length ≤ i
      · have htake : s.take i
            = (x ++ bareTok m) ++ (y.take (i - (x ++ bareTok m).length)) := by
          rw [← hxy, List.take_append_eq_append_take]
          congr 1
          apply List.take_of_length_le
          rw [List.length_append]
          omega
        have hTin : bareTok m <:+: s.take i := by
          refine ⟨x, y.take (i - (x ++ bareTok m).length), ?_⟩
          rw [htake]
        exact hTin.trans (List.prefix_append (s.take i) _).isInfix
      · exfalso
        push_neg at hA hB
        by_cases hC : x.length ≤ i
        · have hoff : i - x.length < (bareTok m).length := by omega
          have hdropX : s.drop i = (bareTok m).drop (i - x.length) ++ y := by
            rw [← hxy, List.append_assoc, List.drop_append_eq_append_drop,
              List.drop_eq_nil_of_le (by omega), List.nil_append,
              List.drop_append_eq_append_drop,
              Nat.sub_eq_zero_of_le (le_of_lt hoff), List.drop_zero]
          rw [hdropX] at hpre
          by_cases hoff0 : i - x.length = 0
          · rw [hoff0, List.drop_zero] at hpre
            rcases Nat.le_total (bareTok a).length (bareTok m).length with hle | hle
            · have hTpre : bareTok a <+: bareTok m :=
                List.prefix_of_prefix_length_le hpre (List.prefix_append _ _) hle
              exact hma (prefix_bareTok_eq hm.2 hTpre).symm
            · have hTpre : bareTok m <+: bareTok a :=
                List.prefix_of_prefix_length_le (List.prefix_append _ _) hpre hle
              exact hma (prefix_bareTok_eq ha.2 hTpre)
          · obtain ⟨z, w, hzw, hzmem⟩ := drop_bareTok_tail (c := m) (by omega) hoff
            rw [hzw] at hpre
            have hpre' : ('[' : Char) :: (a ++ [']']) <+: z :: (w ++ y) := by
              simpa [bareTok] using hpre
            have hz := head_eq_of_prefix_cons hpre'
            rw [← hz] at hzmem
            rcases List.mem_append.mp hzmem with hmm | hmm
            · exact hm.1 hmm
            · simp at hmm
        · push_neg at hC
          have hk1 : 1 ≤ x.length - i := by omega
          have hklt : x.length - i < (bareTok a).length := by omega
          have hdropX : s.drop i = x.drop i ++ (bareTok m ++ y) := by
            rw [← hxy, List.append_assoc, List.drop_append_eq_append_drop,
              Nat.sub_eq_zero_of_le (le_of_lt hC), List.drop_zero]
          rw [hdropX] at hpre
          have hlenxd : (x.drop i).length = x.length - i := List.length_drop i x
          have hu : x.drop i <+: bareTok a :=
            List.prefix_of_prefix_length_le (List.prefix_append _ _) hpre (by omega)
          obtain ⟨t, ht⟩ := hu
          have hxdtake : x.drop i = (bareTok a).take (x.length - i) := by
            have hu' : x.drop i <+: bareTok a := ⟨t, ht⟩
            rw [List.prefix_iff_eq_take] at hu'
            rw [hu', hlenxd]
          have hcat : x.drop i ++ t
              = x.drop i ++ (bareTok a).drop (x.length - i) := by
            rw [ht, hxdtake, List.take_append_drop]
          have hteq : t = (bareTok a).drop (x.length - i) :=
            List.append_cancel_left hcat
          obtain ⟨t2, ht2⟩ := hpre
          rw [← ht, List.append_assoc] at ht2
          have ht3 : t ++ t2 = bareTok m ++ y := List.append_cancel_left ht2
          have htpre : t <+: bareTok m ++ y := ⟨t2, ht3⟩
          obtain ⟨z, w, hzw, hzmem⟩ := drop_bareTok_tail (c := a) hk1 hklt
          rw [hteq, hzw] at htpre
          have htpre' : z :: w <+: ('[' : Char) :: ((m ++ [']']) ++ y) := by
            simpa [bareTok] using htpre
          have hz := head_eq_of_prefix_cons htpre'
          rw [hz] at hzmem
          rcases List.mem_append.mp hzmem with hmm | hmm
          · exact ha.1 hmm
          · simp at hmm
termination_by s.length
decreasing_by
  rw [List.length_drop]
  have hlb := bareTok_length a
  omega

theorem replaceAll_inserts {p r s : List Char} (hp : p ≠ []) (hocc : p <:+: s) :
    r <:+: replaceAllL p r s := by
  obtain ⟨i, hfo⟩ := findOcc_complete (infix_iff_exists_drop.mp hocc)
  rw [replaceAllL_of_some hp hfo]
  exact ⟨s.take i, replaceAllL p r (s.drop (i + p.length)), by rw [List.append_assoc]⟩

theorem rewriteDoc_eq (s : List Char) (d : DocModel) :
    rewriteDoc s d = replaceAllL (bareTok (fnameStr d).toList)
      (bareTok (midTok (fnameStr d).toList (labelNameStr d).toList)) s := by
  rfl

theorem not_infix_citation_foldl {c : List Char} (hc : noBr c)
    (hlbl : ¬ lblChars <:+: c) (l : List DocModel) (hl : ∀ e ∈ l, docCiteOk e)
    (s : List Char) (hs : ¬ bareTok c <:+: s) :
    ¬ bareTok c <:+: l.foldl rewriteDoc s := by
  induction l generalizing s with
  | nil => exact hs
  | cons e t ih =>
    have he := hl e (List.mem_cons_self e t)
    rw [List.foldl_cons]
    refine ih (fun e' he' => hl e' (List.mem_cons_of_mem e he')) _ ?_
    rw [rewriteDoc_eq]
    exact bareTok_not_infix_replaceAll _ (noBr_midTok he.1 he.2.1) hc
      (midTok_ne_of_not_lbl hlbl _) s (Or.inr hs)

theorem survive_citation_foldl {m : List Char} (hm : noBr m) (l : List DocModel)
    (hl : ∀ e ∈ l, docCiteOk e) (hne : ∀ e ∈ l, m ≠ (fnameStr e).toList)
    (s : List Char) (hs : bareTok m <:+: s) :
    bareTok m <:+: l.foldl rewriteDoc s := by
  induction l generalizing s with
  | nil => exact hs
  | cons e t ih =>
    have he := hl e (List.mem_cons_self e t)
    rw [List.foldl_cons]
    refine ih (fun e' he' => hl e' (List.mem_cons_of_mem e he'))
      (fun e' he' => hne e' (List.mem_cons_of_mem e he')) _ ?_
    rw [rewriteDoc_eq]
    exact bareTok_survives_replaceAll _ he.1 hm (hne e (List.mem_cons_self e t)) s hs

/-- C7 counterexample: with a single retrieved document whose source is `x`
and whose label name is the string `[x]`, the answer `[x]` is rewritten to
`[x (Label: [x])]`, which still contains the bare citation token `[x]` —
contradicting the claim that after rewriting the bare form no longer occurs
for any cited retrieved document. -/
theorem citation_rewrite_c7_counterexample :
    bareTok ("x".toList) <:+:
      citationRewriteL [⟨some "x", none, some "[x]", .ok none⟩] ("[x]".toList) := by
  refine ⟨"[x (Label: ".toList, ")]".toList, ?_⟩
  decide

/-- C7 amended: assuming every retrieved document's interpolated filename and
label name are free of square brackets and no filename contains the literal
text " (Label: ", the citation rewrite loop leaves no bare citation token
`[filename]` of any retrieved document in the processed answer; and when the
filenames are pairwise distinct, every answer that contained a bare token
`[filename]` yields a processed text containing the labelled form
`[filename (Label: labelName)]`. -/
theorem citation_rewrite_c7_amended (docs : List DocModel) (answer : List Char)
    (h : ∀ d ∈ docs, docCiteOk d) :
    (∀ d ∈ docs, ¬ bareTok (fnameStr d).toList <:+: citationRewriteL docs answer)
    ∧ ((docs.map fnameStr).Nodup →
        ∀ d ∈ docs, bareTok (fnameStr d).toList <:+: answer →
          labeledTok (fnameStr d).toList (labelNameStr d).toList <:+:
            citationRewriteL docs answer) := by
  constructor
  · intro d hd
    obtain ⟨l₁, l₂, rfl⟩ := List.append_of_mem hd
    have hd1 := h d hd
    unfold citationRewriteL
    rw [List.foldl_append, List.foldl_cons]
    apply not_infix_citation_foldl hd1.1 hd1.2.2 l₂
      (fun e he => h e (by simp [List.mem_append, he]))
    rw [rewriteDoc_eq]
    exact bareTok_not_infix_replaceAll _ (noBr_midTok hd1.1 hd1.2.1) hd1.1
      (midTok_ne_of_not_lbl hd1.2.2 _) _ (Or.inl rfl)
  · intro hnd d hd hbare
    obtain ⟨l₁, l₂, rfl⟩ := List.append_of_mem hd
    have hd1 := h d hd
    rw [List.map_append, List.nodup_append] at hnd
    have hne1 : ∀ e ∈ l₁, (fnameStr d).toList ≠ (fnameStr e).toList := by
      intro e he heq
      have hdm : fnameStr d ∈ (d :: l₂).map fnameStr := by simp
      have hem : fnameStr e ∈ l₁.map fnameStr := List.mem_map_of_mem fnameStr he
      have heq' : fnameStr d = fnameStr e := by
        have := congrArg String.mk heq
        simpa using this
      exact hnd.2.2 hem (heq' ▸ hdm)
    have hne2 : ∀ e ∈ l₂, midTok (fnameStr d).toList (labelNameStr d).toList
        ≠ (fnameStr e).toList := by
      intro e he heq
      exact (h e (by simp [List.mem_append, he])).2.2 (heq ▸ lblChars_infix_midTok _ _)
    unfold citationRewriteL
    rw [List.foldl_append, List.foldl_cons]
    have hsurv1 : bareTok (fnameStr d).toList <:+: l₁.foldl rewriteDoc answer :=
      survive_citation_foldl hd1.1 l₁
        (fun e he => h e (by simp [List.mem_append, he])) hne1 answer hbare
    have hins : labeledTok (fnameStr d).toList (labelNameStr d).toList <:+:
        rewriteDoc (l₁.foldl rewriteDoc answer) d := by
      rw [rewriteDoc_eq]
      exact replaceAll_inserts (bareTok_ne_nil _) hsurv1
    exact survive_citation_foldl (noBr_midTok hd1.1 hd1.2.1) l₂
      (fun e he => h e (by simp [List.mem_append, he])) hne2 _ hins

/-- Witness for the amended C7 at a concrete input: one document with source
`doc1.pdf` and label `General`; the answer cites it; afterwards the bare form
is gone and the labelled form is present. -/
theorem citation_rewrite_c7_amended_witness :
    (¬ bareTok ("doc1.pdf".toList) <:+:
        citationRewriteL [⟨some "doc1.pdf", none, some "General", .ok none⟩]
          ("See [doc1.pdf].".toList))
    ∧ labeledTok ("doc1.pdf".toList) ("General".toList) <:+:
        citationRewriteL [⟨some "doc1.pdf", none, some "General", .ok none⟩]
          ("See [doc1.pdf].".toList) := by
  have hmain := citation_rewrite_c7_amended
    [⟨some "doc1.pdf", none, some "General", .ok none⟩]
    ("See [doc1.pdf].".toList) (by decide)
  exact ⟨hmain.1 ⟨some "doc1.pdf", none, some "General", .ok none⟩ (by decide),
    hmain.2 (by decide) ⟨some "doc1.pdf", none, some "General", .ok none⟩ (by decide)
      ⟨"See ".toList, ".".toList, by decide⟩⟩

/-! ### Orchestration: prompt gating (C3) -/

/-- C3: whenever the `uploadText` activity resolves to `evaluateInline` and
the prompt content evaluation returns a `restrictAccess` policy action, the
handler responds with exactly one NDJSON line carrying the fixed block
message, performs no retrieval call and no model call, and still persists the
session sequence counter advanced by the one evaluation performed. -/
theorem prompt_block_spec (o : ChatOracle) (st : ServerState)
    (msgs : List MsgModel) (lastMsg : MsgModel) (toks : PurviewTokens)
    (etag down : String) (pm : List (String × ProtData)) (sc : Bool) (sid : String)
    (h1 : o.jsonOk = true)
    (h2 : o.messages = some msgs)
    (h3 : msgs.getLast? = some lastMsg)
    (h4 : optTruthy lastMsg.content = true)
    (h5 : optTruthy o.userId = true)
    (h6 : resolvedSessionId o = sid)
    (h7 : sid ≠ "")
    (h8 : getPurviewAccessTokensModel o = (.ok toks, true))
    (h9 : resolveProtection o st (o.userId.getD "")
        = (.ok (etag, "evaluateInline", down, pm), sc))
    (h10 : jsOr o.promptEval.firstAction "default" = "restrictAccess") :
    (postChatsModel o st).response = .ndjson [⟨blockMessage, "assistant", sid⟩]
    ∧ (postChatsModel o st).effects.retrievalCalled = false
    ∧ (postChatsModel o st).effects.modelCalled = false
    ∧ (postChatsModel o st).effects.inlineEvalCalls = 1
    ∧ lookupA (postChatsModel o st).state.sessionSequenceMap sid
        = some (seqOf st sid + 1) := by
  unfold resolvedSessionId at h6
  simp only [postChatsModel, h1, h2, h3, h6, h4, h5, h7, h8, h9, h10, seqOf,
    not_true, Bool.not_eq_true, if_false, ite_false, ite_true, not_false_iff]
  simp [e0, lookupA_setA_self]

/-- Witness for C3 at a concrete request: cached inline upload mode plus a
`restrictAccess` prompt decision yield exactly the single-line block response,
no retrieval or model call, and a persisted counter of 1. -/
theorem prompt_block_spec_witness :
    (postChatsModel oPromptBlock stPromptBlock).response
        = .ndjson [⟨blockMessage, "assistant", "123"⟩]
    ∧ (postChatsModel oPromptBlock stPromptBlock).effects.retrievalCalled = false
    ∧ (postChatsModel oPromptBlock stPromptBlock).effects.modelCalled = false
    ∧ lookupA (postChatsModel oPromptBlock stPromptBlock).state.sessionSequenceMap "123"
        = some 1 := by
  have h := prompt_block_spec oPromptBlock stPromptBlock
    [⟨"user", some "How to Search and Book Rentals?"⟩]
    ⟨"user", some "How to Search and Book Rentals?"⟩
    ⟨"obo-token", "user@contoso.com", "app-token"⟩
    "etag-1" "default" stPromptBlock.sessionProtectionDataMap false "123"
    rfl rfl rfl (by decide) (by decide) rfl (by decide) rfl rfl rfl
  exact ⟨h.1, h.2.1, h.2.2.1, h.2.2.2.2⟩

/-! ### Orchestration: response gating (C10) -/

theorem answerStage_block (o : ChatOracle) (st : ServerState) (sid up : String)
    (cur : Nat) (e : Effects)
    (hact : jsOr o.respEval.firstAction "default" = "restrictAccess") :
    answerStage o st sid up "evaluateInline" cur e =
      ⟨.ndjson [⟨blockMessage, "assistant", sid⟩],
       { st with sessionSequenceMap := setA st.sessionSequenceMap sid (cur + 1) },
       { e with retrievalCalled := true, modelCalled := true,
                inlineEvalCalls := e.inlineEvalCalls + 1, seqPersisted := true }⟩ := by
  unfold answerStage responseGateStage
  simp [hact]

/-- C10: whenever the `downloadText` activity resolves to `evaluateInline`
and the response evaluation returns `restrictAccess` (the prompt gate having
passed), the handler returns the block response before the title-generation
and offline-reporting steps: no title model call is made even when the
session has no title, no offline evaluation is enqueued, and the persisted
sequence counter reflects exactly the inline evaluations performed up to the
block. -/
theorem response_block_spec (o : ChatOracle) (st : ServerState)
    (msgs : List MsgModel) (lastMsg : MsgModel) (toks : PurviewTokens)
    (etag up : String) (pm : List (String × ProtData)) (sc : Bool) (sid : String)
    (h1 : o.jsonOk = true)
    (h2 : o.messages = some msgs)
    (h3 : msgs.getLast? = some lastMsg)
    (h4 : optTruthy lastMsg.content = true)
    (h5 : optTruthy o.userId = true)
    (h6 : resolvedSessionId o = sid)
    (h7 : sid ≠ "")
    (h8 : getPurviewAccessTokensModel o = (.ok toks, true))
    (h9 : resolveProtection o st (o.userId.getD "")
        = (.ok (etag, up, "evaluateInline", pm), sc))
    (h10 : jsOr o.respEval.firstAction "default" = "restrictAccess")
    (h11 : up = "evaluateInline" → jsOr o.promptEval.firstAction "default" ≠ "restrictAccess") :
    (postChatsModel o st).response = .ndjson [⟨blockMessage, "assistant", sid⟩]
    ∧ (postChatsModel o st).effects.titleModelCalled = false
    ∧ (postChatsModel o st).effects.offlineEnqueued = false
    ∧ (postChatsModel o st).effects.inlineEvalCalls
        = (if up = "evaluateInline" then 2 else 1)
    ∧ lookupA (postChatsModel o st).state.sessionSequenceMap sid
        = some (seqOf st sid + (if up = "evaluateInline" then 2 else 1)) := by
  unfold resolvedSessionId at h6
  by_cases hup : up = "evaluateInline"
  · have hprompt := h11 hup
    subst hup
    simp only [postChatsModel, h1, h2, h3, h6, h4, h5, h7, h8, h9, h10, hprompt, seqOf,
      not_true, Bool.not_eq_true, if_false, ite_false, ite_true, not_false_iff,
      answerStage_block _ _ _ _ _ _ h10]
    simp [e0, lookupA_setA_self]
  · simp only [postChatsModel, h1, h2, h3, h6, h4, h5, h7, h8, h9, h10, hup, seqOf,
      not_true, Bool.not_eq_true, if_false, ite_false, ite_true, not_false_iff,
      answerStage_block _ _ _ _ _ _ h10]
    simp [e0, hup, lookupA_setA_self]

/-- Witness for C10 at a concrete request: cached inline download mode plus a
`restrictAccess` response decision return the block line before title
generation and offline reporting: no title model call, no offline enqueue,
counter persisted at 1 (one inline evaluation performed). -/
theorem response_block_spec_witness :
    (postChatsModel { oRespBlock with hasTitle := false } stRespBlock).response
        = .ndjson [⟨blockMessage, "assistant", "123"⟩]
    ∧ (postChatsModel { oRespBlock with hasTitle := false } stRespBlock).effects.titleModelCalled
        = false
    ∧ (postChatsModel { oRespBlock with hasTitle := false } stRespBlock).effects.offlineEnqueued
        = false
    ∧ lookupA (postChatsModel { oRespBlock with hasTitle := false }
          stRespBlock).state.sessionSequenceMap "123" = some 1 := by
  have h := response_block_spec { oRespBlock with hasTitle := false } stRespBlock
    [⟨"user", some "How to Search and Book Rentals?"⟩]
    ⟨"user", some "How to Search and Book Rentals?"⟩
    ⟨"obo-token", "user@contoso.com", "app-token"⟩
    "etag-1" "default" stRespBlock.sessionProtectionDataMap false "123"
    rfl rfl rfl (by decide) (by decide) rfl (by decide) rfl rfl rfl
    (by intro hup; exact absurd hup (by decide))
  exact ⟨h.1, h.2.1, h.2.2.1, h.2.2.2.2⟩

/-! ### Orchestration: protection-scope cache (C6) -/

theorem jsOr_ne_empty (x : Option String) (d : String) (hd : d ≠ "") :
    jsOr x d ≠ "" := by
  unfold jsOr
  cases x with
  | none => exact hd
  | some s =>
    by_cases hs : s = ""
    · simp [hs, hd]
    · simp [hs]

theorem resolveProtection_hit (o : ChatOracle) (st : ServerState) (uid : String)
    (pd : ProtData) (hpd : lookupA st.sessionProtectionDataMap uid = some pd)
    (hetag : pd.etag ≠ "") :
    resolveProtection o st uid =
      (.ok (pd.etag, resolveMode pd.activityExecutionMap "uploadText",
            resolveMode pd.activityExecutionMap "downloadText",
            st.sessionProtectionDataMap), false) := by
  unfold resolveProtection
  rw [hpd]
  simp [hetag]

theorem resolveProtection_preserves (o : ChatOracle) (st : ServerState)
    (uid u' : String) (pd' : ProtData)
    (h : lookupA st.sessionProtectionDataMap u' = some pd') (hne : pd'.etag ≠ "")
    (etag up down : String) (pm : List (String × ProtData)) (sc : Bool)
    (hres : resolveProtection o st uid = (.ok (etag, up, down, pm), sc)) :
    lookupA pm u' = some pd' := by
  unfold resolveProtection at hres
  rcases hl : lookupA st.sessionProtectionDataMap uid with _ | pd
  · rw [hl] at hres
    rcases hp : processProtectionScopeApiResponse o.scopeBody with _ | ⟨am, up', down'⟩
    · simp [hp] at hres
    · simp only [hp, Prod.mk.injEq, Except.ok.injEq] at hres
      obtain ⟨⟨_, _, _, hpm⟩, _⟩ := hres
      have huid : uid ≠ u' := by
        intro he
        rw [he, h] at hl
        cases hl
      rw [← hpm, lookupA_setA_other _ _ _ _ (fun he => huid he.symm)]
      exact h
  · rw [hl] at hres
    by_cases hetag : pd.etag = ""
    · simp only [hetag, ne_eq, not_true_eq_false, if_false] at hres
      rcases hp : processProtectionScopeApiResponse o.scopeBody with _ | ⟨am, up', down'⟩
      · simp [hp] at hres
      · simp only [hp, Prod.mk.injEq, Except.ok.injEq] at hres
        obtain ⟨⟨_, _, _, hpm⟩, _⟩ := hres
        have huid : uid ≠ u' := by
          intro he
          rw [he, h] at hl
          injection hl with hl'
          exact hne (by rw [hl']; exact hetag)
        rw [← hpm, lookupA_setA_other _ _ _ _ (fun he => huid he.symm)]
        exact h
    · simp only [hetag, ne_eq, not_false_eq_true, if_true, Prod.mk.injEq,
        Except.ok.injEq] at hres
      obtain ⟨⟨_, _, _, hpm⟩, _⟩ := hres
      rw [← hpm]
      exact h

theorem resolveProtection_good (o : ChatOracle) (st : ServerState) (uid : String)
    (hgood : ∀ u' pd', lookupA st.sessionProtectionDataMap u' = some pd' → pd'.etag ≠ "")
    (etag up down : String) (pm : List (String × ProtData)) (sc : Bool)
    (hres : resolveProtection o st uid = (.ok (etag, up, down, pm), sc)) :
    ∀ u' pd', lookupA pm u' = some pd' → pd'.etag ≠ "" := by
  unfold resolveProtection at hres
  rcases hl : lookupA st.sessionProtectionDataMap uid with _ | pd
  · rw [hl] at hres
    rcases hp : processProtectionScopeApiResponse o.scopeBody with _ | ⟨am, up', down'⟩
    · simp [hp] at hres
    · simp only [hp, Prod.mk.injEq, Except.ok.injEq] at hres
      obtain ⟨⟨_, _, _, hpm⟩, _⟩ := hres
      intro u' pd' hlu
      by_cases hu : u' = uid
      · rw [← hpm, hu, lookupA_setA_self] at hlu
        injection hlu with hlu'
        rw [← hlu']
        exact jsOr_ne_empty _ _ (by decide)
      · rw [← hpm, lookupA_setA_other _ _ _ _ hu] at hlu
        exact hgood u' pd' hlu
  · rw [hl] at hres
    by_cases hetag : pd.etag = ""
    · simp only [hetag, ne_eq, not_true_eq_false, if_false] at hres
      rcases hp : processProtectionScopeApiResponse o.scopeBody with _ | ⟨am, up', down'⟩
      · simp [hp] at hres
      · simp only [hp, Prod.mk.injEq, Except.ok.injEq] at hres
        obtain ⟨⟨_, _, _, hpm⟩, _⟩ := hres
        intro u' pd' hlu
        by_cases hu : u' = uid
        · rw [← hpm, hu, lookupA_setA_self] at hlu
          injection hlu with hlu'
          rw [← hlu']
          exact jsOr_ne_empty _ _ (by decide)
        · rw [← hpm, lookupA_setA_other _ _ _ _ hu] at hlu
          exact hgood u' pd' hlu
    · simp only [hetag, ne_eq, not_false_eq_true, if_true, Prod.mk.injEq,
        Except.ok.injEq] at hres
      obtain ⟨⟨_, _, _, hpm⟩, _⟩ := hres
      intro u' pd' hlu
      rw [← hpm] at hlu
      exact hgood u' pd' hlu

theorem answerStage_prot (o : ChatOracle) (st : ServerState) (sid up down : String)
    (cur : Nat) (e : Effects) :
    (answerStage o st sid up down cur e).state.sessionProtectionDataMap
      = st.sessionProtectionDataMap := by
  unfold answerStage responseGateStage finalStage
  by_cases h1 : down = "evaluateInline" <;>
    by_cases h2 : jsOr o.respEval.firstAction "default" = "restrictAccess" <;>
    by_cases h3 : down = "evaluateOffline" <;>
    by_cases h4 : up = "evaluateOffline" <;>
    by_cases h5 : o.hasTitle <;>
    simp [h1, h2, h3, h4, h5]

theorem answerStage_scopeEff (o : ChatOracle) (st : ServerState) (sid up down : String)
    (cur : Nat) (e : Effects) :
    (answerStage o st sid up down cur e).effects.scopeApiCalled
      = e.scopeApiCalled := by
  unfold answerStage responseGateStage finalStage
  by_cases h1 : down = "evaluateInline" <;>
    by_cases h2 : jsOr o.respEval.firstAction "default" = "restrictAccess" <;>
    by_cases h3 : down = "evaluateOffline" <;>
    by_cases h4 : up = "evaluateOffline" <;>
    by_cases h5 : o.hasTitle <;>
    simp [h1, h2, h3, h4, h5]

theorem postChats_prot (o : ChatOracle) (st : ServerState) :
    ((postChatsModel o st).state.sessionProtectionDataMap = st.sessionProtectionDataMap
      ∧ (postChatsModel o st).effects.scopeApiCalled = false)
    ∨ (∃ etag up down pm sc,
        resolveProtection o st (o.userId.getD "") = (.ok (etag, up, down, pm), sc)
        ∧ (postChatsModel o st).state.sessionProtectionDataMap = pm
        ∧ (postChatsModel o st).effects.scopeApiCalled = sc)
    ∨ (∃ sc, resolveProtection o st (o.userId.getD "") = (.error (), sc)
        ∧ (postChatsModel o st).state.sessionProtectionDataMap
            = st.sessionProtectionDataMap) := by
  rcases hj : o.jsonOk with _ | _
  · exact Or.inl (by simp [postChatsModel, hj, e0])
  rcases hm : o.messages with _ | msgs
  · exact Or.inl (by simp [postChatsModel, hj, hm, e0])
  rcases hg : msgs.getLast? with _ | lastMsg
  · exact Or.inl (by simp [postChatsModel, hj, hm, hg, e0])
  by_cases hv : (¬ optTruthy lastMsg.content ∨ ¬ optTruthy o.userId
      ∨ jsOr o.ctxSessionId o.uuid = "")
  · exact Or.inl (by simp only [postChatsModel, hj, hm, hg, if_pos hv]; exact ⟨rfl, rfl⟩)
  rcases ht : getPurviewAccessTokensModel o with ⟨tok, idC⟩
  rcases tok with ⟨⟩ | toks
  · exact Or.inl (by simp only [postChatsModel, hj, hm, hg, if_neg hv, ht]; exact ⟨rfl, rfl⟩)
  rcases hr : resolveProtection o st (o.userId.getD "") with ⟨res, sc⟩
  rcases res with ⟨⟨⟩⟩ | ⟨etag, up, down, pm⟩
  · refine Or.inr (Or.inr ⟨sc, ?_, ?_⟩)
    · rfl
    · simp only [postChatsModel, hj, hm, hg, if_neg hv, ht, hr]
      simp
  · refine Or.inr (Or.inl ⟨etag, up, down, pm, sc, ?_, ?_, ?_⟩)
    · rfl
    · simp only [postChatsModel, hj, hm, hg, if_neg hv, ht, hr]
      simp only [not_true, ite_false, ite_true]
      split
      · split
        · rfl
        · rw [answerStage_prot]
      · rw [answerStage_prot]
    · simp only [postChatsModel, hj, hm, hg, if_neg hv, ht, hr]
      simp only [not_true, ite_false, ite_true]
      split
      · split
        · rfl
        · rw [answerStage_scopeEff]
      · rw [answerStage_scopeEff]

/-- C6: once a policy-scope entry is cached for a user (entries are always
stored with a truthy etag), no later request removes or replaces it — the
commented-out delete leaves the `modified` signal unacted upon — every request
resolving to that user reads the cache without a ProtectionScope API call,
and all cached entries keep truthy etags, so the cache never returns to the
uncached state within the process lifetime. -/
theorem cache_never_invalidated_c6 (o : ChatOracle) (st : ServerState)
    (u : String) (pd : ProtData)
    (hgood : ∀ u' pd', lookupA st.sessionProtectionDataMap u' = some pd' → pd'.etag ≠ "")
    (hpd : lookupA st.sessionProtectionDataMap u = some pd) :
    lookupA (postChatsModel o st).state.sessionProtectionDataMap u = some pd
    ∧ (o.userId = some u → (postChatsModel o st).effects.scopeApiCalled = false)
    ∧ (∀ u' pd', lookupA (postChatsModel o st).state.sessionProtectionDataMap u' = some pd'
        → pd'.etag ≠ "") := by
  have hetag := hgood u pd hpd
  rcases postChats_prot o st with ⟨hmap, hscope⟩
    | ⟨etag, up, down, pm, sc, hres, hmap, hscope⟩ | ⟨sc, hres, hmap⟩
  · exact ⟨hmap ▸ hpd, fun _ => hscope, fun u' pd' h => hgood u' pd' (hmap ▸ h)⟩
  · refine ⟨?_, ?_, ?_⟩
    · rw [hmap]
      exact resolveProtection_preserves o st _ u pd hpd hetag _ _ _ _ _ hres
    · intro huid
      rw [huid, Option.getD_some,
        resolveProtection_hit o st u pd hpd hetag] at hres
      simp only [Prod.mk.injEq] at hres
      rw [hscope, ← hres.2]
    · intro u' pd' h
      rw [hmap] at h
      exact resolveProtection_good o st _ hgood _ _ _ _ _ hres u' pd' h
  · refine ⟨hmap ▸ hpd, ?_, fun u' pd' h => hgood u' pd' (hmap ▸ h)⟩
    intro huid
    rw [huid, Option.getD_some,
      resolveProtection_hit o st u pd hpd hetag] at hres
    simp at hres

/-- Witness for C6: with `user1` cached (inline upload mode, etag `etag-1`),
a concrete follow-up request leaves the entry in place and calls no scope
API. -/
theorem cache_never_invalidated_c6_witness :
    lookupA (postChatsModel oBase stPromptBlock).state.sessionProtectionDataMap "user1"
        = some ⟨"etag-1", [("uploadText", some "evaluateInline")]⟩
    ∧ (postChatsModel oBase stPromptBlock).effects.scopeApiCalled = false := by
  have h := cache_never_invalidated_c6 oBase stPromptBlock "user1"
    ⟨"etag-1", [("uploadText", some "evaluateInline")]⟩
    (by
      intro u' pd' hl
      simp only [stPromptBlock, lookupA] at hl
      split at hl
      · injection hl with hv
        rw [← hv]
        decide
      · cases hl)
    rfl
  exact ⟨h.1, h.2.1 rfl⟩

/-! ### Orchestration: token acquisition (C8) -/

theorem getTokens_error_of_header (o : ChatOracle)
    (h : authHeaderOk o.authorizationHeader = false) :
    getPurviewAccessTokensModel o = (.error (), false) := by
  unfold getPurviewAccessTokensModel
  simp [h]

theorem getTokens_error_of_token (o : ChatOracle)
    (h : optTruthy o.oboAccessToken = false ∨ optTruthy o.appAccessToken = false) :
    ∃ b, getPurviewAccessTokensModel o = (.error (), b) := by
  unfold getPurviewAccessTokensModel
  by_cases hh : authHeaderOk o.authorizationHeader
  · rcases h with h | h
    · exact ⟨true, by simp [hh, h]⟩
    · by_cases hobo : optTruthy o.oboAccessToken
      · exact ⟨true, by simp [hh, hobo, h]⟩
      · exact ⟨true, by simp [hh, hobo]⟩
  · exact ⟨false, by simp [hh]⟩

theorem postChats_token_error (o : ChatOracle) (st : ServerState) (b : Bool)
    (ht : getPurviewAccessTokensModel o = (.error (), b)) :
    ((postChatsModel o st).effects.identityCalled = false
        ∨ (postChatsModel o st).effects.identityCalled = b)
    ∧ (postChatsModel o st).effects.scopeApiCalled = false
    ∧ (postChatsModel o st).effects.retrievalCalled = false
    ∧ (postChatsModel o st).effects.modelCalled = false
    ∧ (postChatsModel o st).effects.inlineEvalCalls = 0
    ∧ ∀ lines, (postChatsModel o st).response ≠ .ndjson lines := by
  rcases hj : o.jsonOk with _ | _
  · simp [postChatsModel, hj, e0]
  rcases hm : o.messages with _ | msgs
  · simp [postChatsModel, hj, hm, e0]
  rcases hg : msgs.getLast? with _ | lastMsg
  · simp [postChatsModel, hj, hm, hg, e0]
  by_cases hv : (¬ optTruthy lastMsg.content = true ∨ ¬ optTruthy o.userId = true
      ∨ jsOr o.ctxSessionId o.uuid = "")
  · simp only [postChatsModel, hj, hm, hg, if_pos hv]
    simp [e0]
  · simp only [postChatsModel, hj, hm, hg, if_neg hv, ht]
    simp [e0]

/-- C8: a missing or malformed Authorization header fails the request before
any call — identity, scope, content evaluation, retrieval or model — is
attempted; a well-formed header with either token exchange yielding no access
token also fails the request with no downstream (scope, evaluation, retrieval,
model) call. -/
theorem auth_gate_c8 (o : ChatOracle) (st : ServerState) :
    (authHeaderOk o.authorizationHeader = false →
      ((postChatsModel o st).effects.identityCalled = false
        ∧ (postChatsModel o st).effects.scopeApiCalled = false
        ∧ (postChatsModel o st).effects.retrievalCalled = false
        ∧ (postChatsModel o st).effects.modelCalled = false
        ∧ (postChatsModel o st).effects.inlineEvalCalls = 0
        ∧ ∀ lines, (postChatsModel o st).response ≠ .ndjson lines))
    ∧ ((optTruthy o.oboAccessToken = false ∨ optTruthy o.appAccessToken = false) →
      ((postChatsModel o st).effects.scopeApiCalled = false
        ∧ (postChatsModel o st).effects.retrievalCalled = false
        ∧ (postChatsModel o st).effects.modelCalled = false
        ∧ (postChatsModel o st).effects.inlineEvalCalls = 0
        ∧ ∀ lines, (postChatsModel o st).response ≠ .ndjson lines)) := by
  constructor
  · intro hh
    have ht := getTokens_error_of_header o hh
    have h := postChats_token_error o st false ht
    refine ⟨?_, h.2.1, h.2.2.1, h.2.2.2.1, h.2.2.2.2.1, h.2.2.2.2.2⟩
    rcases h.1 with h1 | h1 <;> exact h1
  · intro htok
    obtain ⟨b, ht⟩ := getTokens_error_of_token o htok
    have h := postChats_token_error o st b ht
    exact ⟨h.2.1, h.2.2.1, h.2.2.2.1, h.2.2.2.2.1, h.2.2.2.2.2⟩

/-- Witness for C8: a request with no Authorization header makes no identity
call and streams nothing; a request whose on-behalf-of exchange returns no
token makes no scope call and streams nothing. -/
theorem auth_gate_c8_witness :
    ((postChatsModel oNoAuth stEmpty).effects.identityCalled = false
      ∧ ∀ lines, (postChatsModel oNoAuth stEmpty).response ≠ .ndjson lines)
    ∧ ((postChatsModel oNoOboToken stEmpty).effects.scopeApiCalled = false
      ∧ ∀ lines, (postChatsModel oNoOboToken stEmpty).response ≠ .ndjson lines) := by
  have h1 := (auth_gate_c8 oNoAuth stEmpty).1 (by decide)
  have h2 := (auth_gate_c8 oNoOboToken stEmpty).2 (Or.inl (by decide))
  exact ⟨⟨h1.1, h1.2.2.2.2.2⟩, ⟨h2.1, h2.2.2.2.2⟩⟩

/-! ### Orchestration: request validation (C5) -/

/-- C5: at the failing input — a syntactically valid body whose `messages`
array is empty — the handler returns the generic 503 response, because
`messages.at(-1)!.content` throws before the `messages.length === 0` guard
can return 400; a request with a missing `userId`, by contrast, does reach
the guard and yields 400. -/
theorem empty_messages_503_c5 :
    (postChatsModel oEmptyMessages stEmpty).response = .serviceUnavailable msg503
    ∧ oEmptyMessages.messages = some []
    ∧ (postChatsModel { oBase with userId := none } stEmpty).response
        = .badRequest msg400 := by
  exact ⟨rfl, rfl, rfl⟩

/-! ### Orchestration: sequence counter (C2) -/

theorem answerStage_seq (o : ChatOracle) (st : ServerState) (sid up down : String)
    (cur : Nat) (e : Effects)
    (hpers : e.seqPersisted = false) (hoff : e.offlineEnqueued = false)
    (hcur : cur = seqOf st sid + e.inlineEvalCalls) :
    seqOf (answerStage o st sid up down cur e).state sid
        = seqOf st sid + persistedIncrement (answerStage o st sid up down cur e).effects
    ∧ (∀ sid', sid' ≠ sid →
        lookupA (answerStage o st sid up down cur e).state.sessionSequenceMap sid'
          = lookupA st.sessionSequenceMap sid') := by
  unfold answerStage responseGateStage finalStage
  by_cases h1 : down = "evaluateInline"
  · by_cases h2 : jsOr o.respEval.firstAction "default" = "restrictAccess"
    · constructor
      · simp [h1, h2, seqOf, persistedIncrement, claimedIncrement, hoff, hcur,
          lookupA_setA_self]
        omega
      · intro sid' h
        simp [h1, h2]
        exact lookupA_setA_other _ _ _ _ h
    · by_cases h4 : up = "evaluateOffline" <;> by_cases h5 : o.hasTitle
      · constructor
        · simp [h1, h2, h4, h5, seqOf, persistedIncrement, claimedIncrement, hoff,
            hcur, lookupA_setA_self]
          omega
        · intro sid' h
          simp [h1, h2, h4, h5]
          exact lookupA_setA_other _ _ _ _ h
      · constructor
        · simp [h1, h2, h4, h5, seqOf, persistedIncrement, claimedIncrement, hoff,
            hcur, lookupA_setA_self]
          omega
        · intro sid' h
          simp [h1, h2, h4, h5]
          exact lookupA_setA_other _ _ _ _ h
      · constructor
        · simp [h1, h2, h4, h5, seqOf, persistedIncrement, claimedIncrement, hpers,
            hoff, hcur]
        · intro sid' h
          simp [h1, h2, h4, h5]
      · constructor
        · simp [h1, h2, h4, h5, seqOf, persistedIncrement, claimedIncrement, hpers,
            hoff, hcur]
        · intro sid' h
          simp [h1, h2, h4, h5]
  · by_cases h3 : down = "evaluateOffline" <;> by_cases h4 : up = "evaluateOffline" <;>
      by_cases h5 : o.hasTitle
    all_goals (
      first
      | (constructor
         · simp [h1, h3, h4, h5, seqOf, persistedIncrement, claimedIncrement, hoff,
             hcur, lookupA_setA_self]
           try omega
         · intro sid' h
           simp [h1, h3, h4, h5]
           try exact lookupA_setA_other _ _ _ _ h)
      | (constructor
         · simp [h1, h3, h4, h5, seqOf, persistedIncrement, claimedIncrement, hpers,
             hoff, hcur]
         · intro sid' h
           simp [h1, h3, h4, h5]))

theorem postChats_seq_step (o : ChatOracle) (st : ServerState) :
    seqOf (postChatsModel o st).state (resolvedSessionId o)
        = seqOf st (resolvedSessionId o)
          + persistedIncrement (postChatsModel o st).effects
    ∧ (∀ sid', sid' ≠ resolvedSessionId o →
        lookupA (postChatsModel o st).state.sessionSequenceMap sid'
          = lookupA st.sessionSequenceMap sid') := by
  rcases hj : o.jsonOk with _ | _
  · simp [postChatsModel, hj, e0, persistedIncrement, claimedIncrement]
  rcases hm : o.messages with _ | msgs
  · simp [postChatsModel, hj, hm, e0, persistedIncrement, claimedIncrement]
  rcases hg : msgs.getLast? with _ | lastMsg
  · simp [postChatsModel, hj, hm, hg, e0, persistedIncrement, claimedIncrement]
  by_cases hv : (¬ optTruthy lastMsg.content = true ∨ ¬ optTruthy o.userId = true
      ∨ jsOr o.ctxSessionId o.uuid = "")
  · simp only [postChatsModel, hj, hm, hg, if_pos hv]
    simp [e0, persistedIncrement, claimedIncrement]
  rcases ht : getPurviewAccessTokensModel o with ⟨tok, idC⟩
  rcases tok with ⟨⟨⟩⟩ | toks
  · simp only [postChatsModel, hj, hm, hg, if_neg hv, ht]
    simp [e0, persistedIncrement, claimedIncrement]
  rcases hr : resolveProtection o st (o.userId.getD "") with ⟨res, sc⟩
  rcases res with ⟨⟨⟩⟩ | ⟨etag, up, down, pm⟩
  · simp only [postChatsModel, hj, hm, hg, if_neg hv, ht, hr]
    simp [e0, persistedIncrement, claimedIncrement]
  · by_cases hup : up = "evaluateInline"
    · by_cases hact : jsOr o.promptEval.firstAction "default" = "restrictAccess"
      · simp only [postChatsModel, hj, hm, hg, if_neg hv, ht, hr, hup, hact, ite_true]
        constructor
        · simp [resolvedSessionId, seqOf, persistedIncrement, claimedIncrement, e0,
            lookupA_setA_self]
        · intro sid' h
          simp only [resolvedSessionId] at h
          simp [e0]
          exact lookupA_setA_other _ _ _ _ h
      · subst hup
        have ha := answerStage_seq o ⟨st.sessionSequenceMap, pm⟩
          (jsOr o.ctxSessionId o.uuid) "evaluateInline" down
          ((lookupA st.sessionSequenceMap (jsOr o.ctxSessionId o.uuid)).getD 0 + 1)
          ⟨true, sc, 1, false, false, false, false, false⟩ rfl rfl (by simp [seqOf])
        simp only [postChatsModel, hj, hm, hg, if_neg hv, ht, hr, hact, ite_true,
          ite_false, e0, resolvedSessionId, not_true, if_false]
        constructor
        · have h1 := ha.1
          simp only [seqOf] at h1 ⊢
          exact h1
        · intro sid' h
          have h2 := ha.2 sid' h
          simpa using h2
    · have ha := answerStage_seq o ⟨st.sessionSequenceMap, pm⟩
        (jsOr o.ctxSessionId o.uuid) up down
        ((lookupA st.sessionSequenceMap (jsOr o.ctxSessionId o.uuid)).getD 0)
        ⟨true, sc, 0, false, false, false, false, false⟩ rfl rfl (by simp [seqOf])
      simp only [postChatsModel, hj, hm, hg, if_neg hv, ht, hr, hup, ite_false, e0,
        resolvedSessionId, not_true, if_false]
      constructor
      · have h1 := ha.1
        simp only [seqOf] at h1 ⊢
        exact h1
      · intro sid' h
        have h2 := ha.2 sid' h
        simpa using h2

theorem postChats_seq_mono (o : ChatOracle) (s : ServerState) (sid' : String) :
    seqOf s sid' ≤ seqOf (postChatsModel o s).state sid' := by
  rcases postChats_seq_step o s with ⟨h1, h2⟩
  by_cases hs : sid' = resolvedSessionId o
  · rw [hs, h1]
    omega
  · unfold seqOf
    rw [h2 sid' hs]

theorem runChats_mono (os : List ChatOracle) (s : ServerState) (sid' : String) :
    seqOf s sid' ≤ seqOf (runChats os s) sid' := by
  induction os generalizing s with
  | nil => exact le_rfl
  | cons o t ih =>
    unfold runChats
    rw [List.foldl_cons]
    exact le_trans (postChats_seq_mono o s sid') (ih (postChatsModel o s).state)

theorem runChatsTrace_fst (os : List ChatOracle) (s : ServerState) :
    (runChatsTrace os s).1 = runChats os s := by
  induction os generalizing s with
  | nil => rfl
  | cons o t ih =>
    unfold runChatsTrace runChats
    rw [List.foldl_cons]
    simp only []
    rw [ih (postChatsModel o s).state]
    rfl

/-- C2 counterexample: a request whose `uploadText` mode is inline and whose
prompt evaluation allows the request, with no offline enqueue, performs one
inline content evaluation (the claim's per-request increment sums to 1) yet
persists nothing: the stored counter after the request is still 0, not 1. -/
theorem sequence_counter_c2_counterexample :
    ((runChatsTrace [oBase] stPromptBlock).2.map claimedIncrement).sum = 1
    ∧ seqOf (runChatsTrace [oBase] stPromptBlock).1 "123" = 0
    ∧ resolvedSessionId oBase = "123" := by
  exact ⟨rfl, rfl, rfl⟩

/-- C2 amended: for a single session processed serially, the stored sequence
counter after N requests equals its initial value plus the sum of the
increments of the requests that persisted the counter (a request persists on
an inline block or an offline enqueue, contributing 1 per inline evaluation
performed plus 2 for an offline enqueue; a request that completes without a
block and without an offline enqueue never writes the counter back, so its
inline increments are lost); the stored counter never decreases across
requests. -/
theorem sequence_counter_c2_amended (os : List ChatOracle) (st : ServerState)
    (sid : String) (h : ∀ o ∈ os, resolvedSessionId o = sid) :
    seqOf (runChats os st) sid
        = seqOf st sid + ((runChatsTrace os st).2.map persistedIncrement).sum
    ∧ (∀ os₁ os₂, os = os₁ ++ os₂ →
        seqOf (runChats os₁ st) sid ≤ seqOf (runChats os st) sid) := by
  constructor
  · rw [← runChatsTrace_fst]
    induction os generalizing st with
    | nil => simp [runChatsTrace, seqOf]
    | cons o t ih =>
      have hstep := (postChats_seq_step o st).1
      rw [h o (List.mem_cons_self o t)] at hstep
      unfold runChatsTrace
      simp only []
      rw [ih (postChatsModel o st).state
        (fun o' ho' => h o' (List.mem_cons_of_mem o ho')), hstep]
      simp [List.map_cons, List.sum_cons]
      omega
  · intro os₁ os₂ heq
    subst heq
    unfold runChats
    rw [List.foldl_append]
    exact runChats_mono os₂ _ sid

/-- Witness for the amended C2: one serial request that blocks on the prompt
persists its single inline increment, matching the persisted-increment sum. -/
theorem sequence_counter_c2_amended_witness :
    seqOf (runChats [oPromptBlock] stPromptBlock) "123"
        = seqOf stPromptBlock "123"
          + ((runChatsTrace [oPromptBlock] stPromptBlock).2.map persistedIncrement).sum :=
  (sequence_counter_c2_amended [oPromptBlock] stPromptBlock "123"
    (by
      intro o ho
      rw [List.mem_singleton] at ho
      subst ho
      rfl)).1
